import Mathlib

/-!
Verification of the document structure-extraction and normalization pipeline
(`document_paresing_and_extracting_structuerd.py` and
`normalization_and_cleaning.py`).

Modeling conventions:
* Text is a `List Char`.  Python lines obtained from `content.split('\n')`
  are `splitNl`; joining with `'\n'.join` is `joinNl`.
* Character classes (`str.isspace`, regex `\s`, `\d`, `[A-Z]`, `str.islower`,
  `str.isalnum`, `\w`) are modeled over their ASCII/common-whitespace
  behaviour, which is exact on every input considered here.
* Python float arithmetic in the quality score and ratio tests is modeled by
  exact rational arithmetic (`ℚ`); all constants involved (0.5, thresholds
  compared against small integer ratios) make the comparisons agree.
* The external collaborators are parameters: `unicodedata.normalize('NFC',·)`
  is an arbitrary function `nfc : Str → Str`, and `langdetect.detect` is an
  oracle `detect : Str → Option Str` (`none` models a raised
  `LangDetectException`).
* Element ids: the source uses the string `f"element_{position}"`, which is in
  bijection with the position; ids are therefore modeled as the `position`
  itself (a `Nat`).
* The python `metadata` dictionaries (`Dict[str, Any]`) attached to elements,
  structures and normalized documents are not modeled; no claim refers to
  them.
-/

namespace DocPipe

/-- Text as a list of characters. -/
abbrev Str := List Char

/-- The whitespace code points recognized by Python's `str.isspace`, `str.strip`
and (for the characters occurring in lines) the regex class `\s`. -/
def pySpace (c : Char) : Bool :=
  let n := c.toNat
  decide (n = 0x20 ∨ n = 0x09 ∨ n = 0x0A ∨ n = 0x0B ∨ n = 0x0C ∨ n = 0x0D ∨
    (0x1C ≤ n ∧ n ≤ 0x1F) ∨ n = 0x85 ∨ n = 0xA0 ∨ n = 0x1680 ∨
    (0x2000 ≤ n ∧ n ≤ 0x200A) ∨ n = 0x2028 ∨ n = 0x2029 ∨ n = 0x202F ∨
    n = 0x205F ∨ n = 0x3000)

/-- Python `str.strip()`: drop leading and trailing whitespace. -/
def strip (l : Str) : Str :=
  ((l.dropWhile pySpace).reverse.dropWhile pySpace).reverse

/-- Python `content.split('\n')`. -/
def splitNl : Str → List Str
  | [] => [[]]
  | c :: rest =>
    if c = '\n' then [] :: splitNl rest
    else
      match splitNl rest with
      | [] => [[c]]
      | l :: ls => (c :: l) :: ls

/-- Python `'\n'.join(lines)`. -/
def joinNl : List Str → Str
  | [] => []
  | [l] => l
  | l :: ls => l ++ '\n' :: joinNl ls

/-- Length of the run of characters satisfying `p` at the front of the list. -/
def leadCount (p : Char → Bool) : Str → Nat
  | [] => 0
  | c :: rest => if p c then leadCount p rest + 1 else 0

/-- The backtick character (written by code point). -/
def btick : Char := Char.ofNat 96

/-- Three backticks, the code fence marker. -/
def fence3 : Str := [btick, btick, btick]

/-- Regex `\w` (word character), ASCII fragment. -/
def isWordChar (c : Char) : Bool := c.isAlphanum || c == '_'

/-! ## Data model of `document_paresing_and_extracting_structuerd.py` -/

/-- The `ContentType` enumeration. -/
inductive ContentType where
  | title
  | heading
  | subheading
  | paragraph
  | listItem
  | table
  | codeBlock
  | quote
  | metadataTag
  | unknown
  deriving DecidableEq, Repr

/-- The `DocumentElement` dataclass.  The id `f"element_{position}"` is
represented by `position`; `children_ids` is never populated by the source
(`_build_hierarchy` only fills the hierarchy dict) and is omitted; the
`metadata` dict is omitted. -/
structure DocumentElement where
  content : Str
  element_type : ContentType
  level : Nat
  position : Nat
  parent_id : Option Nat := none
  deriving DecidableEq, Repr

/-- One entry of the table of contents
(`{'title', 'level', 'position', 'element_id'}`). -/
structure TocEntry where
  title : Str
  level : Nat
  position : Nat
  element_id : Nat
  deriving DecidableEq, Repr

/-- The `DocumentStructure` dataclass.  The hierarchy dict
(`parent_id -> [child_ids]`, insertion ordered) is an association list; the
`metadata` dict is omitted. -/
structure DocumentStructure where
  elements : List DocumentElement
  hierarchy : List (Nat × List Nat)
  table_of_contents : List TocEntry
  deriving DecidableEq, Repr

/-! ## Line pattern matchers of `DocumentParser`

Each matcher models one regex applied with `re.match` to a line that the
caller has already produced with `.strip()` (as `_identify_element` and
`_is_structured_line` do).  Lines come from `content.split('\n')` and hence
contain no `'\n'`. -/

/-- Markdown heading regex `^#{1,6}\s+(.+)$` (`re.match`): returns the
captured group 1.  Greedy `\s+` takes all whitespace after the hashes; since
the input line is stripped it cannot end in whitespace, so group 1 starts at
the first non-whitespace character and is nonempty whenever any character
follows the whitespace run. -/
def mdHashMatch (s : Str) : Option Str :=
  let h := leadCount (· == '#') s
  if 1 ≤ h ∧ h ≤ 6 then
    match s.drop h with
    | [] => none
    | c :: rest =>
      if pySpace c then
        match (c :: rest).dropWhile pySpace with
        | [] => none
        | x :: xs => some (x :: xs)
      else none
  else none

/-- Level function of the markdown heading rule:
`len(m.group(1).split()[0])`, the length of the first whitespace-separated
token of group 1 (note: group 1 is the heading text, not the hash marker). -/
def mdHashLevel (g : Str) : Nat := (g.takeWhile (fun c => !pySpace c)).length

/-- Markdown heading regex `^([A-Z][^.]*\.)$`: an ASCII capital, then
characters other than `'.'`, then a final `'.'`. -/
def upperPeriodMatch (s : Str) : Bool :=
  match s with
  | [] => false
  | c :: rest =>
    c.isUpper && !rest.isEmpty && rest.getLast? == some '.' &&
      !rest.dropLast.contains '.'

/-- General heading regex `^[A-Z][A-Z\s]{10,}$` (all-caps title). -/
def allCapsMatch (s : Str) : Bool :=
  match s with
  | [] => false
  | c :: rest =>
    c.isUpper && decide (10 ≤ rest.length) &&
      rest.all (fun d => d.isUpper || pySpace d)

/-- General heading regex `^\d+\.\s+[A-Z]` (numbered section, prefix match). -/
def numberedMatch (s : Str) : Bool :=
  let d := leadCount Char.isDigit s
  decide (1 ≤ d) &&
    (match s.drop d with
     | '.' :: q =>
       (match q with
        | c :: _ => pySpace c &&
            (match q.dropWhile pySpace with
             | u :: _ => u.isUpper
             | [] => false)
        | [] => false)
     | _ => false)

/-- General heading regex `^[A-Z][a-z\s]+:$` (capitalized line ending in a
colon). -/
def colonMatch (s : Str) : Bool :=
  match s with
  | [] => false
  | c :: rest =>
    c.isUpper && rest.getLast? == some ':' && !rest.dropLast.isEmpty &&
      rest.dropLast.all (fun d => d.isLower || pySpace d)

/-- List regex `^[\s]*[-•*]\s+(.+)$` (bullet items). -/
def bulletMatch (s : Str) : Bool :=
  match s.dropWhile pySpace with
  | m :: c :: _ :: _ => (m == '-' || m == '•' || m == '*') && pySpace c
  | _ => false

/-- List regex `^[\s]*\d+\.\s+(.+)$` (numbered items). -/
def numListMatch (s : Str) : Bool :=
  let r := s.dropWhile pySpace
  let d := leadCount Char.isDigit r
  decide (1 ≤ d) &&
    (match r.drop d with
     | '.' :: c :: _ :: _ => pySpace c
     | _ => false)

/-- List regex `^[\s]*[a-zA-Z]\.\s+(.+)$` (letter items). -/
def letterListMatch (s : Str) : Bool :=
  match s.dropWhile pySpace with
  | a :: '.' :: c :: _ :: _ => a.isAlpha && pySpace c
  | _ => false

/-- Table regex `\|.*\|` under `re.match`: the line must start with `'|'`
and contain a second `'|'`. -/
def pipeMatch (s : Str) : Bool :=
  match s with
  | '|' :: rest => rest.contains '|'
  | _ => false

/-- Table regex `^\s*\+[-+\s]+\+\s*$` (ASCII border). -/
def borderMatch (s : Str) : Bool :=
  let t := strip s
  decide (3 ≤ t.length) && t.head? == some '+' && t.getLast? == some '+' &&
    (t.drop 1).dropLast.all (fun c => c == '-' || c == '+' || pySpace c)

/-- Code regex `^```[\w]*\n.*?\n```$`: three backticks, word characters, a
newline, a newline-free body, a newline and a closing fence (regex `$` also
accepts one final trailing newline).  A line produced by `split('\n')`
contains no newline, so on such lines this never matches. -/
def fencedPattern (s : Str) : Bool :=
  s.take 3 == fence3 &&
    (let r := (s.drop 3).dropWhile isWordChar
     match r with
     | '\n' :: t =>
       let m := t.takeWhile (· != '\n')
       let u := t.drop m.length
       u == '\n' :: fence3 || u == '\n' :: (fence3 ++ ['\n'])
     | _ => false)

/-- Code regex `^\s{4,}.*$` (indented code; never matches a stripped
nonempty line). -/
def indentMatch (s : Str) : Bool := decide (4 ≤ leadCount pySpace s)

/-- Heading prefix regex `^#{1,6}\s+` used by `_is_structured_line`
(no content after the whitespace is required). -/
def hashWsPrefixMatch (s : Str) : Bool :=
  let h := leadCount (· == '#') s
  decide (1 ≤ h ∧ h ≤ 6) &&
    (match s.drop h with
     | c :: _ => pySpace c
     | [] => false)

/-- `DocumentParser._is_structured_line`. -/
def isStructuredLine (l : Str) : Bool :=
  let s := strip l
  hashWsPrefixMatch s || bulletMatch s || numListMatch s || letterListMatch s ||
    pipeMatch s || borderMatch s

/-! ## Element extraction -/

/-- Continuation test of `_extract_table`: `re.match(r'^[\s|\|+-]', line)`
on the raw line. -/
def tableCont (l : Str) : Bool :=
  match l with
  | [] => false
  | c :: _ => pySpace c || c == '|' || c == '+' || c == '-'

/-- `DocumentParser._extract_table`, acting on the suffix of lines starting
at the current index.  Raw lines are consumed; the scan stops after a line
whose successor is blank or does not continue the border/pipe shape. -/
def extractTable : List Str → List Str
  | [] => []
  | l :: rest =>
    l ::
      (match rest with
       | [] => []
       | l2 :: _ =>
         if strip l2 = [] then []
         else if !tableCont l2 then []
         else extractTable rest)

/-- Scanning part of `_extract_code_block` for a fenced block: consume raw
lines up to and including the closing fence. -/
def fenceRest : List Str → List Str
  | [] => []
  | l :: rest =>
    if (strip l).take 3 = fence3 then [l]
    else l :: fenceRest rest

/-- `DocumentParser._extract_code_block` on the suffix of lines starting at
the current index: a stripped opening fence plus raw lines through the
closing fence, or the run of raw lines indented by four spaces. -/
def extractCodeBlock (ls : List Str) : List Str :=
  match ls with
  | [] => []
  | l :: rest =>
    let s := strip l
    if s.take 3 = fence3 then s :: fenceRest rest
    else (l :: rest).takeWhile (fun x => x.take 4 == [' ', ' ', ' ', ' '])

/-- `DocumentParser._extract_paragraph` on the suffix of lines starting at
the current index: stripped consecutive lines until a blank or structured
line. -/
def extractParagraphLines : List Str → List Str
  | [] => []
  | l :: rest =>
    let s := strip l
    if s = [] then []
    else if isStructuredLine s then []
    else s :: extractParagraphLines rest

/-- `DocumentParser._identify_element` on the suffix of lines starting at
the current index.  Returns `(element_type, level, content_lines,
lines_consumed)`.  `fmtMd` is true when the detected document format is
`'markdown'`; `heading_patterns.get('plain_text', [])` is empty, and the
`'general'` patterns always run afterwards. -/
def identifyElement (ls : List Str) (fmtMd : Bool) :
    ContentType × Nat × List Str × Nat :=
  match ls with
  | [] => (ContentType.unknown, 0, [], 0)
  | l :: _ =>
    let s := strip l
    match (if fmtMd then mdHashMatch s else none) with
    | some g => (ContentType.heading, mdHashLevel g, [s], 1)
    | none =>
      if fmtMd && upperPeriodMatch s then (ContentType.heading, 1, [s], 1)
      else if allCapsMatch s then (ContentType.heading, 1, [s], 1)
      else if numberedMatch s then (ContentType.heading, 2, [s], 1)
      else if colonMatch s then (ContentType.heading, 2, [s], 1)
      else if bulletMatch s || numListMatch s || letterListMatch s then
        (ContentType.listItem, 1, [s], 1)
      else if pipeMatch s || borderMatch s then
        let tl := extractTable ls
        (ContentType.table, 1, tl, tl.length)
      else if fencedPattern s || indentMatch s then
        let cl := extractCodeBlock ls
        (ContentType.codeBlock, 1, cl, cl.length)
      else (ContentType.unknown, 0, [], 0)

/-- The element-construction loop of `DocumentParser._parse_elements`.
`none` models divergence of the Python `while` loop: when an identification
consumes zero lines (or the paragraph fallback collects zero lines) the index
`i` never advances and the source loops forever.  The `fuel` argument makes
the recursion structural; every loop iteration advances past at least one
line, so fuel equal to the number of lines (as passed by `parse`) is never
exhausted. -/
def parseGo (fmtMd : Bool) : Nat → List Str → Nat → Option (List DocumentElement)
  | _, [], _ => some []
  | 0, _ :: _, _ => none
  | fuel + 1, l :: rest, pos =>
    if strip l = [] then parseGo fmtMd fuel rest pos
    else
      let r := identifyElement (l :: rest) fmtMd
      if r.1 ≠ ContentType.unknown then
        if r.2.2.2 = 0 then none
        else
          match parseGo fmtMd fuel ((l :: rest).drop r.2.2.2) (pos + 1) with
          | none => none
          | some es =>
            some ({ content := joinNl r.2.2.1, element_type := r.1,
                    level := r.2.1, position := pos } :: es)
      else
        let pls := extractParagraphLines (l :: rest)
        if pls = [] then none
        else
          match parseGo fmtMd fuel ((l :: rest).drop pls.length) (pos + 1) with
          | none => none
          | some es =>
            some ({ content := joinNl pls, element_type := ContentType.paragraph,
                    level := 0, position := pos } :: es)

/-! ## Hierarchy, table of contents, format detection -/

/-- Append a child id to the (insertion-ordered) hierarchy dict entry of
`pid`, creating the entry if absent. -/
def hierAdd : List (Nat × List Nat) → Nat → Nat → List (Nat × List Nat)
  | [], pid, cid => [(pid, [cid])]
  | (k, ks) :: rest, pid, cid =>
    if k = pid then (k, ks ++ [cid]) :: rest
    else (k, ks) :: hierAdd rest pid cid

/-- The loop of `DocumentParser._build_hierarchy`.  The stack of
`(element_id, level)` pairs has its top at the head. -/
def buildHierarchyGo (stack : List (Nat × Nat)) (hier : List (Nat × List Nat)) :
    List DocumentElement → List DocumentElement × List (Nat × List Nat)
  | [] => ([], hier)
  | e :: rest =>
    let stack1 := stack.dropWhile (fun p => decide (e.level ≤ p.2))
    let e2 :=
      match stack1 with
      | [] => e
      | (pid, _) :: _ => { e with parent_id := some pid }
    let hier2 :=
      match stack1 with
      | [] => hier
      | (pid, _) :: _ => hierAdd hier pid e.position
    let stack2 :=
      if e.element_type = ContentType.title ∨ e.element_type = ContentType.heading
      then (e.position, e.level) :: stack1
      else stack1
    let r := buildHierarchyGo stack2 hier2 rest
    (e2 :: r.1, r.2)

/-- `DocumentParser._build_hierarchy`: returns the elements with `parent_id`
assigned together with the hierarchy dict. -/
def buildHierarchy (es : List DocumentElement) :
    List DocumentElement × List (Nat × List Nat) :=
  buildHierarchyGo [] [] es

/-- `DocumentParser._generate_table_of_contents`. -/
def generateToc (es : List DocumentElement) : List TocEntry :=
  es.filterMap fun e =>
    if e.element_type = ContentType.title ∨ e.element_type = ContentType.heading
    then some ⟨e.content, e.level, e.position, e.position⟩
    else none

/-- One line's contribution to `re.search(r'^#{1,6}\s+', content,
re.MULTILINE)`: a run of one to six hashes at the line start followed by a
whitespace character; when the line consists of the hashes only, the `\s+`
can consume the following `'\n'`, so such a line matches iff it is not the
last one (`notLast`). -/
def lineHashTrigger (l : Str) (notLast : Bool) : Bool :=
  let h := leadCount (· == '#') l
  decide (1 ≤ h ∧ h ≤ 6) &&
    (match l.drop h with
     | [] => notLast
     | c :: _ => pySpace c)

/-- The multiline heading search of `_detect_format`, over the split lines. -/
def mlHeadingSearch : List Str → Bool
  | [] => false
  | [l] => lineHashTrigger l false
  | l :: l2 :: rest => lineHashTrigger l true || mlHeadingSearch (l2 :: rest)

/-- `re.search(r'\|.*\|', content)`: some line contains two pipes
(`.` does not cross newlines). -/
def pipeSearch (lines : List Str) : Bool :=
  lines.any fun l => decide (2 ≤ (l.filter (· == '|')).length)

/-- `DocumentParser._detect_format`, as the boolean "format is markdown"
(the only other outcome is `'plain_text'`). -/
def detectFormatMd (content : Str) (fileType : Str) : Bool :=
  fileType == (r"md").data || mlHeadingSearch (splitNl content) ||
    pipeSearch (splitNl content)

/-- `DocumentParser.parse_document`.  `none` models divergence of the
element loop (see `parseGo`); every other input yields `some` structure. -/
def parse (content : Str) (fileType : Str) : Option DocumentStructure :=
  if strip content = [] then some ⟨[], [], []⟩
  else
    let lines := splitNl content
    let fmtMd := detectFormatMd content fileType
    match parseGo fmtMd lines.length lines 0 with
    | none => none
    | some es =>
      let r := buildHierarchy es
      some ⟨r.1, r.2, generateToc r.1⟩

/-! ## Data model of `normalization_and_cleaning.py` -/

/-- The `CleaningLevel` enumeration. -/
inductive CleaningLevel where
  | minimal
  | standard
  | aggressive
  deriving DecidableEq, Repr

/-- The `CleaningStats` dataclass. -/
structure CleaningStats where
  original_chars : Nat := 0
  cleaned_chars : Nat := 0
  headers_removed : Nat := 0
  footers_removed : Nat := 0
  unicode_fixed : Nat := 0
  whitespace_normalized : Nat := 0
  line_breaks_fixed : Nat := 0
  invisible_chars_removed : Nat := 0
  language_detected : Str := (r"unknown").data
  deriving DecidableEq, Repr

/-- `CleaningStats.get_reduction_percentage`, in exact rational arithmetic. -/
def getReductionPercentage (st : CleaningStats) : ℚ :=
  if st.original_chars = 0 then 0
  else ((st.original_chars : ℚ) - (st.cleaned_chars : ℚ)) /
    (st.original_chars : ℚ) * 100

/-- The `NormalizedDocument` dataclass (its `metadata` dict is omitted). -/
structure NormalizedDocument where
  original_structure : DocumentStructure
  cleaned_elements : List DocumentElement
  cleaning_stats : CleaningStats
  detected_language : Str
  quality_score : ℚ
  deriving DecidableEq, Repr

/-! ## Header and footer patterns

Each matcher models one regex from `DocumentNormalizer.header_patterns` /
`footer_patterns`, applied with `re.match` (headers) or `re.search`
(footers) and `re.IGNORECASE` to the stripped line.  The lazy bounded prefix
`.{0,N}?` of a header pattern means the anchored keyword may start at any
offset `i ≤ N`; under `re.search` the prefix is irrelevant and the keyword
may start anywhere. -/

/-- Case-insensitive prefix test against a lowercase keyword
(`re.IGNORECASE`). -/
def startsWithCI : Str → Str → Bool
  | [], _ => true
  | _ :: _, [] => false
  | k :: kr, c :: cr => c.toLower == k && startsWithCI kr cr

/-- Tail `\s*\d+$` appearing after the page keywords. -/
def wsDigitsEnd (r : Str) : Bool :=
  let t := r.dropWhile pySpace
  !t.isEmpty && t.all Char.isDigit

/-- The keyword alternative `(?:page|p\.)` at offset `i`, with its
`\s*\d+$` tail. -/
def pageAt (s : Str) (i : Nat) : Bool :=
  (startsWithCI ((r"page").data) (s.drop i) && wsDigitsEnd (s.drop (i + 4))) ||
  (startsWithCI ((r"p.").data) (s.drop i) && wsDigitsEnd (s.drop (i + 2)))

/-- The keyword alternative `(?:confidential|draft|internal)` at offset
`i`. -/
def confAt (s : Str) (i : Nat) : Bool :=
  startsWithCI ((r"confidential").data) (s.drop i) ||
  startsWithCI ((r"draft").data) (s.drop i) ||
  startsWithCI ((r"internal").data) (s.drop i)

/-- `\d{1,2}/` at the head of `r` (greedy with backtracking; the two widths
are mutually exclusive).  Returns the remainder after the slash. -/
def dOneTwo (r : Str) : Option Str :=
  match r with
  | c1 :: c2 :: c3 :: rest =>
    if c1.isDigit && c2.isDigit && c3 == '/' then some rest
    else if c1.isDigit && c2 == '/' then some (c3 :: rest)
    else none
  | c1 :: c2 :: rest =>
    if c1.isDigit && c2 == '/' then some rest else none
  | _ => none

/-- `\d{1,2}/\d{1,2}/\d{2,4}` at the head of `r` (no trailing anchor, so two
final digits suffice). -/
def dateAt (r : Str) : Bool :=
  match dOneTwo r with
  | none => false
  | some r2 =>
    match dOneTwo r2 with
    | none => false
    | some r3 =>
      match r3 with
      | d1 :: d2 :: _ => d1.isDigit && d2.isDigit
      | _ => false

/-- Tail `\s+\d+` of the chapter/section keywords. -/
def wsThenDigit (r : Str) : Bool :=
  match r with
  | c :: _ =>
    pySpace c &&
      (match r.dropWhile pySpace with
       | d :: _ => d.isDigit
       | [] => false)
  | [] => false

/-- The keyword alternative `(?:chapter|ch\.|section)` at offset `i`, with
its `\s+\d+` tail. -/
def chapterAt (s : Str) (i : Nat) : Bool :=
  (startsWithCI ((r"chapter").data) (s.drop i) && wsThenDigit (s.drop (i + 7))) ||
  (startsWithCI ((r"ch.").data) (s.drop i) && wsThenDigit (s.drop (i + 3))) ||
  (startsWithCI ((r"section").data) (s.drop i) && wsThenDigit (s.drop (i + 7)))

/-- The keyword alternative `(?:copyright|©|all rights reserved)` at offset
`i`. -/
def copyrightAt (s : Str) (i : Nat) : Bool :=
  startsWithCI ((r"copyright").data) (s.drop i) ||
  startsWithCI ['©'] (s.drop i) ||
  startsWithCI ((r"all rights reserved").data) (s.drop i)

/-- Header pattern `^.{0,50}?(?:page|p\.)\s*\d+$` under `re.match`. -/
def hdrPage (s : Str) : Bool := (List.range 51).any (pageAt s)

/-- Header pattern `^.{0,30}?(?:confidential|draft|internal)` under
`re.match`. -/
def hdrConf (s : Str) : Bool := (List.range 31).any (confAt s)

/-- Header pattern `^.{0,30}?\d{1,2}/\d{1,2}/\d{2,4}` under `re.match`. -/
def hdrDate (s : Str) : Bool :=
  (List.range 31).any fun i => dateAt (s.drop i)

/-- Header pattern `^.{0,30}?(?:chapter|ch\.|section)\s+\d+` under
`re.match`. -/
def hdrChapter (s : Str) : Bool := (List.range 31).any (chapterAt s)

/-- Some header pattern matches the stripped line. -/
def matchesAnyHeader (s : Str) : Bool :=
  hdrPage s || hdrConf s || hdrDate s || hdrChapter s

/-- Footer pattern `.{0,50}?(?:page|p\.)\s*\d+$` under `re.search`: the
keyword may start at any offset. -/
def ftrPage (s : Str) : Bool := (List.range (s.length + 1)).any (pageAt s)

/-- Footer pattern `.{0,30}?\d{1,2}/\d{1,2}/\d{2,4}` under `re.search`. -/
def ftrDate (s : Str) : Bool :=
  (List.range (s.length + 1)).any fun i => dateAt (s.drop i)

/-- Footer pattern `.{0,30}?(?:copyright|©|all rights reserved)` under
`re.search`. -/
def ftrCopyright (s : Str) : Bool :=
  (List.range (s.length + 1)).any (copyrightAt s)

/-- Some footer pattern matches the stripped line. -/
def matchesAnyFooter (s : Str) : Bool :=
  ftrPage s || ftrDate s || ftrCopyright s

/-! ## Cleaning passes -/

/-- The line filter of `_remove_headers_footers`: each line is tested,
stripped, first against the header patterns then against the footer
patterns; a matching line is dropped (original line kept otherwise).
Returns (kept lines, headers removed, footers removed). -/
def removeHFGo : List Str → List Str × Nat × Nat
  | [] => ([], 0, 0)
  | l :: rest =>
    let r := removeHFGo rest
    if matchesAnyHeader (strip l) then (r.1, r.2.1 + 1, r.2.2)
    else if matchesAnyFooter (strip l) then (r.1, r.2.1, r.2.2 + 1)
    else (l :: r.1, r.2.1, r.2.2)

/-- `DocumentNormalizer._remove_headers_footers`. -/
def removeHeadersFooters (c : Str) : Str × Nat × Nat :=
  let r := removeHFGo (splitNl c)
  (joinNl r.1, r.2.1, r.2.2)

/-- The characters stripped by `_remove_invisible_characters`: the
`invisible_chars` list (zero-width characters, BOM, non-breaking and
ideographic spaces) plus the control characters
`[\x00-\x08\x0B\x0C\x0E-\x1F\x7F]`. -/
def isBadChar (c : Char) : Bool :=
  let n := c.toNat
  decide (n = 0x200B ∨ n = 0x200C ∨ n = 0x200D ∨ n = 0x2060 ∨ n = 0xFEFF ∨
    n = 0xA0 ∨ n = 0x3000 ∨ n ≤ 0x08 ∨ n = 0x0B ∨ n = 0x0C ∨
    (0x0E ≤ n ∧ n ≤ 0x1F) ∨ n = 0x7F)

/-- `DocumentNormalizer._remove_invisible_characters`: the sequence of
`str.replace` calls and the control-character `re.sub` delete exactly the
`isBadChar` characters; returns the content and the number removed. -/
def removeInvisibleChars (c : Str) : Str × Nat :=
  let c2 := c.filter fun ch => !isBadChar ch
  (c2, c.length - c2.length)

/-- Sets of characters free of every character that
`_remove_invisible_characters` deletes. -/
def NoBad (c : Str) : Prop := ∀ ch ∈ c, isBadChar ch = false

/-- Line-ending normalization of `_fix_line_breaks`:
`content.replace('\r\n','\n').replace('\r','\n')`. -/
def normalizeCR : Str → Str
  | [] => []
  | '\r' :: '\n' :: rest => '\n' :: normalizeCR rest
  | '\r' :: rest => '\n' :: normalizeCR rest
  | c :: rest => c :: normalizeCR rest

/-- The line loop of `_fix_line_breaks`: every line is stripped; when a
nonempty line ends in a lowercase letter and the next line starts (after
stripping) with a lowercase letter, the line is emitted with a trailing
space and the counter is incremented.  (The lines are subsequently re-joined
with newlines.) -/
def fixGo : List Str → List Str × Nat
  | [] => ([], 0)
  | [l] => ([strip l], 0)
  | l :: l2 :: rest =>
    let s := strip l
    let s2 := strip l2
    let r := fixGo (l2 :: rest)
    if !s.isEmpty && s.getLast?.elim false Char.isLower &&
        !s2.isEmpty && s2.head?.elim false Char.isLower
    then ((s ++ [' ']) :: r.1, r.2 + 1)
    else (s :: r.1, r.2)

/-- `DocumentNormalizer._fix_line_breaks`: returns the content and the
number of "fixed" line breaks. -/
def fixLineBreaks (c : Str) : Str × Nat :=
  let r := fixGo (splitNl (normalizeCR c))
  (joinNl r.1, r.2)

/-- State machine for `re.sub(r' {2,}', ' ', ·)`: emit one space per space
run (runs of length one are unchanged, longer runs collapse), tracking
whether the scan is inside a space run. -/
def csGo : Bool → Str → Str
  | _, [] => []
  | inRun, ' ' :: rest =>
    if inRun then csGo true rest else ' ' :: csGo true rest
  | _, c :: rest => c :: csGo false rest

/-- `re.sub(r' {2,}', ' ', ·)`: collapse space runs to a single space. -/
def collapseSpaces (l : Str) : Str := csGo false l

/-- State machine for `re.sub(r'\t+', ' ', ·)`: emit one space per tab run. -/
def ctGo : Bool → Str → Str
  | _, [] => []
  | inRun, '\t' :: rest =>
    if inRun then ctGo true rest else ' ' :: ctGo true rest
  | _, c :: rest => c :: ctGo false rest

/-- `re.sub(r'\t+', ' ', ·)`: collapse tab runs to a single space. -/
def collapseTabs (l : Str) : Str := ctGo false l

/-- State machine for `re.sub(r'\n{3,}', '\n\n', ·)`: emit the first two
newlines of every newline run and drop the rest (`run` counts the newlines
of the current run already scanned). -/
def cnGo (run : Nat) : Str → Str
  | [] => []
  | '\n' :: rest =>
    if run < 2 then '\n' :: cnGo (run + 1) rest else cnGo (run + 1) rest
  | c :: rest => c :: cnGo 0 rest

/-- `re.sub(r'\n{3,}', '\n\n', ·)`: collapse runs of three or more newlines
to two. -/
def collapseNls (l : Str) : Str := cnGo 0 l

/-- `DocumentNormalizer._standardize_whitespace`: collapse space runs, then
tab runs, strip every line, and collapse blank-line runs; the flag records
whether the content changed. -/
def standardizeWhitespace (c : Str) : Str × Bool :=
  let c4 := collapseNls (joinNl ((splitNl (collapseTabs (collapseSpaces c))).map strip))
  (c4, c4 != c)

/-- Count of special characters of a line
(`not c.isalnum() and not c.isspace()`). -/
def specialCount (s : Str) : Nat :=
  (s.filter fun c => !c.isAlphanum && !pySpace c).length

/-- The line filter of `_remove_redundant_content` (aggressive level):
drop stripped lines shorter than 3 characters, lines whose special-character
fraction exceeds 0.7 (exactly: `10 * specials > 7 * length`), and lines
equal to the previously kept line.  `acc` is the list of kept lines. -/
def redGo (acc : List Str) : List Str → List Str
  | [] => acc
  | l :: rest =>
    let s := strip l
    if s.length < 3 then redGo acc rest
    else if 7 * s.length < 10 * specialCount s then redGo acc rest
    else if acc.getLast? = some s then redGo acc rest
    else redGo (acc ++ [s]) rest

/-- `DocumentNormalizer._remove_redundant_content`. -/
def removeRedundantContent (c : Str) : Str := joinNl (redGo [] (splitNl c))

/-! ## Element cleaning and language detection -/

/-- The content pipeline of `DocumentNormalizer._clean_element` (for content
whose strip is nonempty), threading the stats accumulator exactly as the
source mutates it.  `nfc` models `unicodedata.normalize('NFC', ·)`. -/
def cleanElementContent (nfc : Str → Str) (lvl : CleaningLevel) (c : Str)
    (st : CleaningStats) : Str × CleaningStats :=
  let r1 :=
    if lvl = CleaningLevel.standard ∨ lvl = CleaningLevel.aggressive then
      let r := removeHeadersFooters c
      (r.1, { st with headers_removed := st.headers_removed + r.2.1,
                      footers_removed := st.footers_removed + r.2.2 })
    else (c, st)
  let c1 := r1.1
  let st1 := r1.2
  let c2 := nfc c1
  let st2 :=
    if c2 ≠ c1 then { st1 with unicode_fixed := st1.unicode_fixed + 1 } else st1
  let r3 := removeInvisibleChars c2
  let st3 :=
    if 0 < r3.2 then
      { st2 with invisible_chars_removed := st2.invisible_chars_removed + r3.2 }
    else st2
  let r4 := fixLineBreaks r3.1
  let st4 := { st3 with line_breaks_fixed := st3.line_breaks_fixed + r4.2 }
  let r5 := standardizeWhitespace r4.1
  let st5 :=
    if r5.2 then
      { st4 with whitespace_normalized := st4.whitespace_normalized + 1 }
    else st4
  let c6 :=
    if lvl = CleaningLevel.aggressive then removeRedundantContent r5.1 else r5.1
  (c6, st5)

/-- `DocumentNormalizer._clean_element`: `none` for elements whose content
strips to empty; otherwise a new element carrying the cleaned content (the
source constructs a fresh `DocumentElement`, so `parent_id` is reset to its
default). -/
def cleanElement (nfc : Str → Str) (lvl : CleaningLevel) (e : DocumentElement)
    (st : CleaningStats) : Option DocumentElement × CleaningStats :=
  if strip e.content = [] then (none, st)
  else
    let r := cleanElementContent nfc lvl e.content st
    (some { content := r.1, element_type := e.element_type, level := e.level,
            position := e.position, parent_id := none }, r.2)

/-- The element loop of `normalize_document`: clean each element, keep those
whose cleaned content strips nonempty, and for kept elements whose stripped
content length exceeds 50 call the language detector, a failure (`none`)
contributing nothing.  Returns (kept elements, detected language codes in
order, stats). -/
def cleanLoop (nfc : Str → Str) (detect : Str → Option Str)
    (lvl : CleaningLevel) (st : CleaningStats) :
    List DocumentElement → List DocumentElement × List Str × CleaningStats
  | [] => ([], [], st)
  | e :: rest =>
    let r := cleanElement nfc lvl e st
    match r.1 with
    | none => cleanLoop nfc detect lvl r.2 rest
    | some ce =>
      if strip ce.content = [] then cleanLoop nfc detect lvl r.2 rest
      else
        let vs :=
          if 50 < (strip ce.content).length then
            match detect ce.content with
            | some lg => [lg]
            | none => []
          else []
        let rr := cleanLoop nfc detect lvl r.2 rest
        (ce :: rr.1, vs ++ rr.2.1, rr.2.2)

/-- The language-count dictionary update
(`language_counts[lang] = language_counts.get(lang, 0) + 1`, insertion
ordered). -/
def bump : List (Str × Nat) → Str → List (Str × Nat)
  | [], lang => [(lang, 1)]
  | (k, v) :: rest, lang =>
    if k = lang then (k, v + 1) :: rest else (k, v) :: bump rest lang

/-- Building the language-count dictionary from the detected codes. -/
def countLangs (l : List Str) : List (Str × Nat) := l.foldl bump []

/-- Python `max(keys, key=counts.get)`: scan in insertion order keeping the
first entry, replacing only on a strictly greater count. -/
def pickBest (best : Str) (bv : Nat) : List (Str × Nat) → Str
  | [] => best
  | (k, v) :: rest => if bv < v then pickBest k v rest else pickBest best bv rest

/-- `DocumentNormalizer._determine_language`. -/
def determineLanguage (l : List Str) : Str :=
  match countLangs l with
  | [] => (r"unknown").data
  | (k, v) :: rest => pickBest k v rest

/-! ## Quality score and `normalize_document` -/

/-- `DocumentNormalizer._calculate_quality_score`, in exact rational
arithmetic. -/
def calculateQualityScore (elems : List DocumentElement)
    (st : CleaningStats) : ℚ :=
  let score : ℚ := 1
  let red := getReductionPercentage st
  let score :=
    if 50 < red then score - 3 / 10
    else if 30 < red then score - 2 / 10
    else if 15 < red then score - 1 / 10
    else score
  let score :=
    if 0 < elems.length then
      let avg : ℚ :=
        (((elems.map fun e => e.content.length).sum : ℚ)) / (elems.length : ℚ)
      if 100 < avg then score + 1 / 10
      else if avg < 20 then score - 1 / 10
      else score
    else score
  let score :=
    if (elems.length : ℚ) * (1 / 2) <
        ((st.headers_removed + st.footers_removed : ℕ) : ℚ)
    then score - 2 / 10
    else score
  max 0 (min 1 score)

/-- `DocumentNormalizer.normalize_document`.  Note the source order: the
quality score is computed from the stats *before* `cleaned_chars` is filled
in (at that moment `cleaned_chars` still holds its initial 0). -/
def normalizeDocument (nfc : Str → Str) (detect : Str → Option Str)
    (lvl : CleaningLevel) (S : DocumentStructure) : NormalizedDocument :=
  let st0 : CleaningStats :=
    { original_chars := (S.elements.map fun e => e.content.length).sum }
  let r := cleanLoop nfc detect lvl st0 S.elements
  let cleaned := r.1
  let votes := r.2.1
  let lang := determineLanguage votes
  let st2 := { r.2.2 with language_detected := lang }
  let q := calculateQualityScore cleaned st2
  let st3 :=
    { st2 with cleaned_chars := (cleaned.map fun e => e.content.length).sum }
  { original_structure := S, cleaned_elements := cleaned, cleaning_stats := st3,
    detected_language := lang, quality_score := q }

/-- The language votes collected by `normalize_document`, as a standalone
projection of the element loop. -/
def languageVotes (nfc : Str → Str) (detect : Str → Option Str)
    (lvl : CleaningLevel) (S : DocumentStructure) : List Str :=
  (cleanLoop nfc detect lvl
    { original_chars := (S.elements.map fun e => e.content.length).sum }
    S.elements).2.1

/-! ## Concrete inputs used by the scenario claims -/

/-- The default format hint (`file_type = "unknown"`). -/
def unkHint : Str := (r"unknown").data

/-- A detector that always fails (raises). -/
def detFail : Str → Option Str := fun _ => none

/-- A detector that always answers `"en"`. -/
def detEn : Str → Option Str := fun _ => some ((r"en").data)

/-- The value of `unicodedata.normalize('NFC', ·)` on the one-character
content U+0344 (COMBINING GREEK DIALYTIKA TONOS): its canonical
decomposition is U+0308 U+0301, which does not recompose, so NFC lengthens
the string from one character to two. -/
def nfcOn0344 : Str → Str := fun s =>
  if s = ['\u0344'] then ['\u0308', '\u0301'] else s

/-- A one-element structure with the given paragraph content (the shape of
the mock structures used in the repository's tests). -/
def oneParagraph (c : Str) : DocumentStructure :=
  ⟨[{ content := c, element_type := ContentType.paragraph, level := 0,
      position := 0 }], [], []⟩

/-- Scenario A input text. -/
def scnA : Str := ("# Title\n\nSome paragraph text here.").data

/-- Fenced code-block input text. -/
def fencedTxt : Str := ("```\ncode\n```").data

/-- Indented code-block input text. -/
def indentTxt : Str := ("    x = 1\n    y = 2").data

/-- Scenario D input content. -/
def scnD : Str := ("ok\n!!!!!!!!!!\nok\nok").data

/-- A line of ten exclamation marks. -/
def bangLine : Str := (r"!!!!!!!!!!").data

/-- Content whose cleaned form has length 52 but strips to 50 characters:
two newlines followed by fifty `'x'`. -/
def len52Content : Str := '\n' :: ('\n' :: List.replicate 50 'x')

/-- A line on which a header pattern matches only after whitespace
collapsing: `"b"`, thirty-two spaces, `"chapter 1"`. -/
def lateChapter : Str := ('b' :: List.replicate 32 ' ') ++ (r"chapter 1").data

/-- A line on which a footer pattern matches only after whitespace
collapsing: `"all"`, two spaces, `"rights reserved"`. -/
def lateCopyright : Str := (r"all  rights reserved").data

/-- The two-element structure driving the re-cleaning counterexample. -/
def recleanS : DocumentStructure :=
  ⟨[{ content := lateChapter, element_type := ContentType.paragraph,
      level := 0, position := 0 },
    { content := lateCopyright, element_type := ContentType.paragraph,
      level := 0, position := 1 }], [], []⟩

/-- Input with a level-1 heading (all-caps rule) followed by a level-2
heading (numbered-section rule), producing a parent link. -/
def twoHeadings : Str := ("HELLO WORLD THIS IS BIG\n1. Section two").data

/-- Input with a level-1 heading followed by a plain paragraph. -/
def headingPlusPara : Str := ("HELLO WORLD THIS IS BIG\nsome plain text here").data

/-- The structure produced by parsing `twoHeadings`. -/
def twoHeadingsS : DocumentStructure :=
  ⟨[{ content := ("HELLO WORLD THIS IS BIG").data,
      element_type := ContentType.heading, level := 1, position := 0,
      parent_id := none },
    { content := ("1. Section two").data, element_type := ContentType.heading,
      level := 2, position := 1, parent_id := some 0 }],
   [(0, [1])],
   [{ title := ("HELLO WORLD THIS IS BIG").data, level := 1, position := 0,
      element_id := 0 },
    { title := ("1. Section two").data, level := 2, position := 1,
      element_id := 1 }]⟩

/-- The structure produced by parsing `headingPlusPara`. -/
def headingPlusParaS : DocumentStructure :=
  ⟨[{ content := ("HELLO WORLD THIS IS BIG").data,
      element_type := ContentType.heading, level := 1, position := 0,
      parent_id := none },
    { content := ("some plain text here").data,
      element_type := ContentType.paragraph, level := 0, position := 1,
      parent_id := none }],
   [],
   [{ title := ("HELLO WORLD THIS IS BIG").data, level := 1, position := 0,
      element_id := 0 }]⟩

/-! ## Parser structure lemmas -/

/-- The head of a nonempty `dropWhile` result fails the predicate. -/
theorem dropWhile_head_false {α : Type} (p : α → Bool) :
    ∀ (l : List α) (x : α) (xs : List α), l.dropWhile p = x :: xs →
      p x = false := by
  intro l
  induction l with
  | nil => intro x xs h; cases h
  | cons c rest ih =>
    intro x xs h
    rw [List.dropWhile_cons] at h
    split at h
    · exact ih x xs h
    · next hpc =>
        cases h
        cases hpc2 : p c
        · rfl
        · exact absurd hpc2 hpc

/-- A successful markdown heading match yields a positive level: group 1
starts with a non-whitespace character, so its first token is nonempty. -/
theorem mdHashMatch_level_pos (s g : Str) (h : mdHashMatch s = some g) :
    1 ≤ mdHashLevel g := by
  simp only [mdHashMatch] at h
  split at h
  · split at h
    · cases h
    · split at h
      · split at h
        · cases h
        · next x xs heq =>
          cases h
          have hx := dropWhile_head_false pySpace _ x xs heq
          simp [mdHashLevel, List.takeWhile_cons, hx]
      · cases h
  · cases h

/-- Shape of `_identify_element` results: apart from `unknown`, the element
is a heading of positive level or a list item, table or code block of
level 1. -/
theorem identifyElement_shape (ls : List Str) (fmtMd : Bool) :
    (identifyElement ls fmtMd).1 = ContentType.unknown ∨
    ((identifyElement ls fmtMd).1 = ContentType.heading ∧
      1 ≤ (identifyElement ls fmtMd).2.1) ∨
    (((identifyElement ls fmtMd).1 = ContentType.listItem ∨
      (identifyElement ls fmtMd).1 = ContentType.table ∨
      (identifyElement ls fmtMd).1 = ContentType.codeBlock) ∧
      (identifyElement ls fmtMd).2.1 = 1) := by
  rcases ls with _ | ⟨l, rest⟩
  · exact Or.inl rfl
  · simp only [identifyElement]
    rcases hmd : (if fmtMd then mdHashMatch (strip l) else none) with _ | g
    · dsimp only
      split_ifs <;> simp
    · dsimp only
      have hlvl : 1 ≤ mdHashLevel g := by
        rcases fmtMd with _ | _
        · simp at hmd
        · simp only [if_true] at hmd
          exact mdHashMatch_level_pos _ _ hmd
      exact Or.inr (Or.inl ⟨rfl, hlvl⟩)

/-- Shape of the element list produced by the `_parse_elements` loop:
positions are consecutive from the starting position, no element carries a
parent yet, and each element is either a heading of positive level or a
non-title non-heading element of level at most 1. -/
theorem parseGo_elems_spec (fmtMd : Bool) :
    ∀ (fuel : Nat) (ls : List Str) (pos : Nat) (es : List DocumentElement),
      parseGo fmtMd fuel ls pos = some es →
      es.map (fun e => e.position) = List.range' pos es.length ∧
      ∀ e ∈ es, e.parent_id = none ∧
        ((e.element_type = ContentType.heading ∧ 1 ≤ e.level) ∨
         (e.element_type ≠ ContentType.title ∧
          e.element_type ≠ ContentType.heading ∧ e.level ≤ 1)) := by
  intro fuel
  induction fuel with
  | zero =>
    intro ls pos es h
    rcases ls with _ | ⟨l, rest⟩
    · cases h; exact ⟨rfl, by simp⟩
    · cases h
  | succ fuel ih =>
    intro ls pos es h
    rcases ls with _ | ⟨l, rest⟩
    · cases h; exact ⟨rfl, by simp⟩
    · simp only [parseGo] at h
      split at h
      · exact ih rest pos es h
      · split at h
        · split at h
          · cases h
          · rcases hrec : parseGo fmtMd fuel
                ((l :: rest).drop (identifyElement (l :: rest) fmtMd).2.2.2)
                (pos + 1) with _ | es' <;> rw [hrec] at h
            · exact Option.noConfusion h
            · injection h with h2
              subst h2
              obtain ⟨hpos, hall⟩ := ih _ _ _ hrec
              constructor
              · simp only [List.map_cons, hpos, List.length_cons]
                exact (List.range'_succ pos es'.length 1).symm
              · intro e he
                rcases List.mem_cons.mp he with he | he
                · subst he
                  refine ⟨rfl, ?_⟩
                  rcases identifyElement_shape (l :: rest) fmtMd with h0 | h1 | h2
                  · exact absurd h0 (by assumption)
                  · exact Or.inl ⟨h1.1, h1.2⟩
                  · refine Or.inr ⟨?_, ?_, ?_⟩ <;>
                      rcases h2.1 with ht | ht | ht <;> simp [ht, h2.2]
                · exact hall e he
        · split at h
          · cases h
          · rcases hrec : parseGo fmtMd fuel
                ((l :: rest).drop (extractParagraphLines (l :: rest)).length)
                (pos + 1) with _ | es' <;> rw [hrec] at h
            · exact Option.noConfusion h
            · injection h with h2
              subst h2
              obtain ⟨hpos, hall⟩ := ih _ _ _ hrec
              constructor
              · simp only [List.map_cons, hpos, List.length_cons]
                exact (List.range'_succ pos es'.length 1).symm
              · intro e he
                rcases List.mem_cons.mp he with he | he
                · subst he
                  exact ⟨rfl, Or.inr ⟨by simp, by simp, by simp⟩⟩
                · exact hall e he

/-- Every child id recorded by `hierAdd` is either an old one or the added
one. -/
theorem hierAdd_mem :
    ∀ (hier : List (Nat × List Nat)) (pid x : Nat),
      ∀ pr ∈ hierAdd hier pid x, ∀ k ∈ pr.2,
        (∃ pr' ∈ hier, k ∈ pr'.2) ∨ k = x := by
  intro hier
  induction hier with
  | nil =>
    intro pid x pr hpr k hk
    simp only [hierAdd, List.mem_singleton] at hpr
    subst hpr
    simp only [List.mem_singleton] at hk
    exact Or.inr hk
  | cons p rest ih =>
    intro pid x pr hpr k hk
    rcases p with ⟨k0, ks⟩
    simp only [hierAdd] at hpr
    split at hpr
    · rcases List.mem_cons.mp hpr with hpr | hpr
      · subst hpr
        simp only [List.mem_append, List.mem_singleton] at hk
        rcases hk with hk | hk
        · exact Or.inl ⟨(k0, ks), by simp, hk⟩
        · exact Or.inr hk
      · exact Or.inl ⟨pr, by simp [hpr], hk⟩
    · rcases List.mem_cons.mp hpr with hpr | hpr
      · subst hpr
        exact Or.inl ⟨(k0, ks), by simp, hk⟩
      · rcases ih pid x pr hpr k hk with ⟨pr', hpr', hk'⟩ | hx
        · exact Or.inl ⟨pr', by simp [hpr'], hk'⟩
        · exact Or.inr hx

/-- The parent assigned by the hierarchy loop always has a strictly smaller
level: the `C` parameter abstracts the stack entries supplied by the caller
(each known to name an already-emitted title/heading of that level). -/
theorem buildHierarchyGo_parent :
    ∀ (es : List DocumentElement) (C : Nat → Nat → Prop)
      (stack : List (Nat × Nat)) (hier : List (Nat × List Nat)),
      (∀ e ∈ es, e.parent_id = none) →
      (∀ p ∈ stack, C p.1 p.2) →
      ∀ e' ∈ (buildHierarchyGo stack hier es).1, ∀ pid,
        e'.parent_id = some pid →
        ∃ lv, lv < e'.level ∧
          (C pid lv ∨ ∃ q ∈ (buildHierarchyGo stack hier es).1,
            q.position = pid ∧ q.level = lv ∧
            (q.element_type = ContentType.title ∨
             q.element_type = ContentType.heading)) := by
  intro es
  induction es with
  | nil =>
    intro C stack hier _ _ e' he'
    simp [buildHierarchyGo] at he'
  | cons e rest ih =>
    intro C stack hier hnone hstack e' he' pid hpid
    have hnoneE : e.parent_id = none := hnone e (by simp)
    have hnoneRest : ∀ x ∈ rest, x.parent_id = none :=
      fun x hx => hnone x (by simp [hx])
    simp only [buildHierarchyGo] at he' ⊢
    have hsub : ∀ p ∈ stack.dropWhile (fun p => decide (e.level ≤ p.2)),
        p ∈ stack :=
      fun p hp => (List.dropWhile_sublist _).subset hp
    rcases hs : stack.dropWhile (fun p => decide (e.level ≤ p.2)) with
      _ | ⟨⟨pid0, lv0⟩, s'⟩ <;> simp only [hs] at he' hsub ⊢
    · rcases List.mem_cons.mp he' with rfl | he'
      · rw [hnoneE] at hpid; cases hpid
      · have hC' : ∀ p ∈ (if e.element_type = ContentType.title ∨
              e.element_type = ContentType.heading
            then [(e.position, e.level)] else ([] : List (Nat × Nat))),
            (fun a b => C a b ∨ (a = e.position ∧ b = e.level ∧
              (e.element_type = ContentType.title ∨
               e.element_type = ContentType.heading))) p.1 p.2 := by
          intro p hp
          split at hp
          case isTrue hh =>
            rcases List.mem_singleton.mp hp with rfl
            exact Or.inr ⟨rfl, rfl, hh⟩
          case isFalse => cases hp
        rcases ih (fun a b => C a b ∨ (a = e.position ∧ b = e.level ∧
              (e.element_type = ContentType.title ∨
               e.element_type = ContentType.heading))) _ _ hnoneRest hC' e' he' pid hpid with ⟨lv, hlv, hc⟩
        rcases hc with hc | ⟨q, hq, hqp, hql, hqt⟩
        · rcases hc with hc | ⟨rfl, rfl, hh⟩
          · exact ⟨lv, hlv, Or.inl hc⟩
          · exact ⟨e.level, hlv, Or.inr ⟨e, by simp, rfl, rfl, hh⟩⟩
        · exact ⟨lv, hlv, Or.inr ⟨q, by simp [hq], hqp, hql, hqt⟩⟩
    · rcases List.mem_cons.mp he' with rfl | he'
      · injection hpid with hpe
        subst hpe
        have hhead := dropWhile_head_false _ stack _ _ hs
        have hlt : lv0 < e.level := by
          simp only [decide_eq_false_iff_not, not_le] at hhead
          exact hhead
        exact ⟨lv0, hlt, Or.inl (hstack _ (hsub (pid0, lv0) (List.mem_cons_self _ _)))⟩
      · have hC' : ∀ p ∈ (if e.element_type = ContentType.title ∨
              e.element_type = ContentType.heading
            then (e.position, e.level) :: (pid0, lv0) :: s'
            else (pid0, lv0) :: s'),
            (fun a b => C a b ∨ (a = e.position ∧ b = e.level ∧
              (e.element_type = ContentType.title ∨
               e.element_type = ContentType.heading))) p.1 p.2 := by
          intro p hp
          split at hp
          case isTrue hh =>
            rcases List.mem_cons.mp hp with rfl | hp
            · exact Or.inr ⟨rfl, rfl, hh⟩
            · exact Or.inl (hstack p (hsub p hp))
          case isFalse => exact Or.inl (hstack p (hsub p hp))
        rcases ih (fun a b => C a b ∨ (a = e.position ∧ b = e.level ∧
              (e.element_type = ContentType.title ∨
               e.element_type = ContentType.heading))) _ _ hnoneRest hC' e' he' pid hpid with ⟨lv, hlv, hc⟩
        rcases hc with hc | ⟨q, hq, hqp, hql, hqt⟩
        · rcases hc with hc | ⟨rfl, rfl, hh⟩
          · exact ⟨lv, hlv, Or.inl hc⟩
          · exact ⟨e.level, hlv,
              Or.inr ⟨{ e with parent_id := some pid0 }, by simp, rfl, rfl, hh⟩⟩
        · exact ⟨lv, hlv, Or.inr ⟨q, by simp [hq], hqp, hql, hqt⟩⟩

/-- A non-title non-heading element is never assigned a parent: every stack
entry has level at least 1 while such an element has level at most 1, so the
pop loop always empties the stack first. -/
theorem buildHierarchyGo_nonheading :
    ∀ (es : List DocumentElement) (stack : List (Nat × Nat))
      (hier : List (Nat × List Nat)),
      (∀ e ∈ es, e.parent_id = none ∧
        ((e.element_type = ContentType.heading ∧ 1 ≤ e.level) ∨
         (e.element_type ≠ ContentType.title ∧
          e.element_type ≠ ContentType.heading ∧ e.level ≤ 1))) →
      (∀ p ∈ stack, 1 ≤ p.2) →
      ∀ e' ∈ (buildHierarchyGo stack hier es).1,
        e'.element_type ≠ ContentType.title →
        e'.element_type ≠ ContentType.heading → e'.parent_id = none := by
  intro es
  induction es with
  | nil =>
    intro stack hier _ _ e' he'
    simp [buildHierarchyGo] at he'
  | cons e rest ih =>
    intro stack hier hall hstack e' he' ht1 ht2
    have hPe := (hall e (by simp)).2
    have hnoneE := (hall e (by simp)).1
    have hallRest : ∀ x ∈ rest, x.parent_id = none ∧ _ :=
      fun x hx => hall x (by simp [hx])
    simp only [buildHierarchyGo] at he'
    have hsub : ∀ p ∈ stack.dropWhile (fun p => decide (e.level ≤ p.2)),
        p ∈ stack :=
      fun p hp => (List.dropWhile_sublist _).subset hp
    rcases hs : stack.dropWhile (fun p => decide (e.level ≤ p.2)) with
      _ | ⟨⟨pid0, lv0⟩, s'⟩ <;> simp only [hs] at he' hsub
    · rcases List.mem_cons.mp he' with rfl | he'
      · exact hnoneE
      · refine ih _ _ hallRest ?_ e' he' ht1 ht2
        intro p hp
        split at hp
        case isTrue hh =>
          rcases List.mem_singleton.mp hp with rfl
          rcases hPe with ⟨_, hl⟩ | ⟨ha, hb, _⟩
          · exact hl
          · rcases hh with hh | hh
            · exact absurd hh ha
            · exact absurd hh hb
        case isFalse => cases hp
    · rcases List.mem_cons.mp he' with rfl | he'
      · rcases hPe with ⟨hh, _⟩ | ⟨_, _, hl⟩
        · exact absurd hh ht2
        · have hhead := dropWhile_head_false _ stack _ _ hs
          simp only [decide_eq_false_iff_not, not_le] at hhead
          have h1 := hstack _ (hsub (pid0, lv0) (List.mem_cons_self _ _))
          omega
      · refine ih _ _ hallRest ?_ e' he' ht1 ht2
        intro p hp
        split at hp
        case isTrue hh =>
          rcases List.mem_cons.mp hp with rfl | hp
          · rcases hPe with ⟨_, hl⟩ | ⟨ha, hb, _⟩
            · exact hl
            · rcases hh with hh | hh
              · exact absurd hh ha
              · exact absurd hh hb
          · exact hstack p (hsub p hp)
        case isFalse => exact hstack p (hsub p hp)

/-- Every id appearing in a children list of the hierarchy dict is the
position of a title/heading element (given the element shapes produced by
the parser): only elements that receive a parent are appended, and under the
level constraints those are headings.  `K` abstracts children recorded by
the caller. -/
theorem buildHierarchyGo_children :
    ∀ (es : List DocumentElement) (K : Nat → Prop) (stack : List (Nat × Nat))
      (hier : List (Nat × List Nat)),
      (∀ e ∈ es,
        ((e.element_type = ContentType.heading ∧ 1 ≤ e.level) ∨
         (e.element_type ≠ ContentType.title ∧
          e.element_type ≠ ContentType.heading ∧ e.level ≤ 1))) →
      (∀ p ∈ stack, 1 ≤ p.2) →
      (∀ pr ∈ hier, ∀ k ∈ pr.2, K k) →
      ∀ pr ∈ (buildHierarchyGo stack hier es).2, ∀ k ∈ pr.2,
        K k ∨ ∃ q ∈ (buildHierarchyGo stack hier es).1, q.position = k ∧
          (q.element_type = ContentType.title ∨
           q.element_type = ContentType.heading) := by
  intro es
  induction es with
  | nil =>
    intro K stack hier _ _ hK pr hpr k hk
    exact Or.inl (hK pr hpr k hk)
  | cons e rest ih =>
    intro K stack hier hall hstack hK pr hpr k hk
    have hPe := hall e (by simp)
    have hallRest : ∀ x ∈ rest, _ := fun x hx => hall x (by simp [hx])
    simp only [buildHierarchyGo] at hpr ⊢
    have hsub : ∀ p ∈ stack.dropWhile (fun p => decide (e.level ≤ p.2)),
        p ∈ stack :=
      fun p hp => (List.dropWhile_sublist _).subset hp
    rcases hs : stack.dropWhile (fun p => decide (e.level ≤ p.2)) with
      _ | ⟨⟨pid0, lv0⟩, s'⟩ <;> simp only [hs] at hpr hsub ⊢
    · have hstack2 : ∀ p ∈ (if e.element_type = ContentType.title ∨
            e.element_type = ContentType.heading
          then [(e.position, e.level)] else ([] : List (Nat × Nat))),
          1 ≤ p.2 := by
        intro p hp
        split at hp
        case isTrue hh =>
          rcases List.mem_singleton.mp hp with rfl
          rcases hPe with ⟨_, hl⟩ | ⟨ha, hb, _⟩
          · exact hl
          · rcases hh with hh | hh
            · exact absurd hh ha
            · exact absurd hh hb
        case isFalse => cases hp
      rcases ih K _ _ hallRest hstack2 hK pr hpr k hk with hkk | ⟨q, hq, hqp, hqt⟩
      · exact Or.inl hkk
      · exact Or.inr ⟨q, by simp [hq], hqp, hqt⟩
    · have hhead := dropWhile_head_false _ stack _ _ hs
      simp only [decide_eq_false_iff_not, not_le] at hhead
      have h1 : 1 ≤ lv0 := hstack _ (hsub (pid0, lv0) (List.mem_cons_self _ _))
      have hheading : e.element_type = ContentType.heading := by
        rcases hPe with ⟨hh, _⟩ | ⟨_, _, hl⟩
        · exact hh
        · omega
      have hstack2 : ∀ p ∈ (if e.element_type = ContentType.title ∨
            e.element_type = ContentType.heading
          then (e.position, e.level) :: (pid0, lv0) :: s'
          else (pid0, lv0) :: s'), 1 ≤ p.2 := by
        intro p hp
        split at hp
        case isTrue =>
          rcases List.mem_cons.mp hp with rfl | hp
          · rcases hPe with ⟨_, hl⟩ | ⟨_, hb, _⟩
            · exact hl
            · exact absurd hheading hb
          · exact hstack p (hsub p hp)
        case isFalse => exact hstack p (hsub p hp)
      have hK' : ∀ pr' ∈ hierAdd hier pid0 e.position, ∀ k' ∈ pr'.2,
          (K k' ∨ k' = e.position) := by
        intro pr' hpr' k' hk'
        rcases hierAdd_mem hier pid0 e.position pr' hpr' k' hk' with
          ⟨pr'', hpr'', hk''⟩ | hx
        · exact Or.inl (hK pr'' hpr'' k' hk'')
        · exact Or.inr hx
      rcases ih (fun k' => K k' ∨ k' = e.position) _ _ hallRest hstack2 hK'
          pr hpr k hk with hkk | ⟨q, hq, hqp, hqt⟩
      · rcases hkk with hkk | rfl
        · exact Or.inl hkk
        · exact Or.inr ⟨{ e with parent_id := some pid0 }, by simp, rfl,
            Or.inr hheading⟩
      · exact Or.inr ⟨q, by simp [hq], hqp, hqt⟩

/-- The hierarchy loop does not alter positions (it only assigns
`parent_id`). -/
theorem buildHierarchyGo_pos_map :
    ∀ (es : List DocumentElement) (stack : List (Nat × Nat))
      (hier : List (Nat × List Nat)),
      (buildHierarchyGo stack hier es).1.map (fun e => e.position) =
        es.map (fun e => e.position) := by
  intro es
  induction es with
  | nil => intro stack hier; rfl
  | cons e rest ih =>
    intro stack hier
    simp only [buildHierarchyGo, List.map_cons]
    rcases hs : stack.dropWhile (fun p => decide (e.level ≤ p.2)) with
      _ | ⟨⟨pid, lv⟩, s'⟩ <;>
      simp only [hs, List.map_cons, ih]

/-- C6: in every structure returned by the parser, element positions (the
ids) are pairwise distinct, and the element referred to by a non-null
`parent_id` is an element of the structure whose level is strictly less than
the child's level. -/
theorem c6_parent_level_lt (txt ftype : Str) (S : DocumentStructure)
    (hp : parse txt ftype = some S) :
    (S.elements.map fun e => e.position).Nodup ∧
    ∀ e ∈ S.elements, ∀ pid, e.parent_id = some pid →
      ∃ q ∈ S.elements, q.position = pid ∧ q.level < e.level := by
  simp only [parse] at hp
  split at hp
  · injection hp with h
    subst h
    exact ⟨List.nodup_nil, by intro e he; cases he⟩
  · rcases hGo : parseGo (detectFormatMd txt ftype) (splitNl txt).length
        (splitNl txt) 0 with _ | es <;> rw [hGo] at hp
    · exact Option.noConfusion hp
    · injection hp with h
      subst h
      obtain ⟨hpos, hall⟩ := parseGo_elems_spec _ _ _ _ _ hGo
      constructor
      · show (((buildHierarchyGo [] [] es).1.map fun e => e.position)).Nodup
        rw [buildHierarchyGo_pos_map, hpos]
        exact List.nodup_range' _ _
      · intro e he pid hpid
        rcases buildHierarchyGo_parent es (fun _ _ => False) [] []
            (fun x hx => (hall x hx).1) (by intro p hp0; cases hp0)
            e he pid hpid with ⟨lv, hlv, hc⟩
        rcases hc with hc | ⟨q, hq, hqp, hql, _⟩
        · exact hc.elim
        · exact ⟨q, hq, hqp, hql ▸ hlv⟩

/-- C6 witness: on `"HELLO WORLD THIS IS BIG\n1. Section two"` the parser
returns a structure in which the level-2 heading at position 1 has
`parent_id = 0`, and the theorem produces the level-1 parent. -/
theorem c6_parent_level_lt_witness :
    parse twoHeadings unkHint = some twoHeadingsS ∧
    (∃ q ∈ twoHeadingsS.elements, q.position = 0 ∧ q.level < 2) := by
  have hp : parse twoHeadings unkHint = some twoHeadingsS := by decide
  refine ⟨hp, ?_⟩
  exact (c6_parent_level_lt twoHeadings unkHint twoHeadingsS hp).2
    { content := ("1. Section two").data, element_type := ContentType.heading,
      level := 2, position := 1, parent_id := some 0 }
    (by decide) 0 rfl

/-- C10: in every structure returned by the parser, an element whose kind is
not Title and not Heading has no parent and its id appears in no children
list of the hierarchy map. -/
theorem c10_nonheading_is_leaf_root (txt ftype : Str) (S : DocumentStructure)
    (hp : parse txt ftype = some S) :
    ∀ e ∈ S.elements, e.element_type ≠ ContentType.title →
      e.element_type ≠ ContentType.heading →
      e.parent_id = none ∧ ∀ pr ∈ S.hierarchy, e.position ∉ pr.2 := by
  simp only [parse] at hp
  split at hp
  · injection hp with h
    subst h
    intro e he
    cases he
  · rcases hGo : parseGo (detectFormatMd txt ftype) (splitNl txt).length
        (splitNl txt) 0 with _ | es <;> rw [hGo] at hp
    · exact Option.noConfusion hp
    · injection hp with h
      subst h
      obtain ⟨hpos, hall⟩ := parseGo_elems_spec _ _ _ _ _ hGo
      intro e he ht1 ht2
      constructor
      · exact buildHierarchyGo_nonheading es [] [] hall
          (by intro p hp0; cases hp0) e he ht1 ht2
      · intro pr hpr hk
        rcases buildHierarchyGo_children es (fun _ => False) [] []
            (fun x hx => (hall x hx).2) (by intro p hp0; cases hp0)
            (by intro pr0 hpr0; cases hpr0) pr hpr e.position hk with
          hF | ⟨q, hq, hqp, hqt⟩
        · exact hF
        · have hnd : (((buildHierarchyGo [] [] es).1.map
              fun x => x.position)).Nodup := by
            rw [buildHierarchyGo_pos_map, hpos]
            exact List.nodup_range' _ _
          have hqe : q = e := List.inj_on_of_nodup_map hnd hq he hqp
          subst hqe
          rcases hqt with h | h
          · exact ht1 h
          · exact ht2 h

/-- C10 witness: on `"HELLO WORLD THIS IS BIG\nsome plain text here"` the
paragraph element at position 1 has no parent and its id is in no children
list. -/
theorem c10_nonheading_is_leaf_root_witness :
    parse headingPlusPara unkHint = some headingPlusParaS ∧
    ({ content := ("some plain text here").data,
       element_type := ContentType.paragraph, level := 0, position := 1,
       parent_id := none } : DocumentElement).parent_id = none ∧
    ∀ pr ∈ headingPlusParaS.hierarchy, (1 : Nat) ∉ pr.2 := by
  have hp : parse headingPlusPara unkHint = some headingPlusParaS := by decide
  refine ⟨hp, ?_⟩
  exact c10_nonheading_is_leaf_root headingPlusPara unkHint headingPlusParaS hp
    { content := ("some plain text here").data,
      element_type := ContentType.paragraph, level := 0, position := 1,
      parent_id := none }
    (by decide) (by decide) (by decide)

/-! ## String-length lemmas for the cleaning passes -/

/-- `splitNl` never returns the empty list. -/
theorem splitNl_ne_nil (c : Str) : splitNl c ≠ [] := by
  induction c with
  | nil => simp [splitNl]
  | cons ch rest ih =>
    simp only [splitNl]
    split
    · simp
    · rcases h : splitNl rest with _ | ⟨l, ls⟩
      · simp
      · simp

/-- Splitting on newlines and rejoining is the identity. -/
theorem joinNl_splitNl (c : Str) : joinNl (splitNl c) = c := by
  induction c with
  | nil => rfl
  | cons ch rest ih =>
    simp only [splitNl]
    split
    · rcases h : splitNl rest with _ | ⟨l, ls⟩
      · exact absurd h (splitNl_ne_nil rest)
      · rw [h] at ih
        subst ih
        simp_all [joinNl]
    · rcases h : splitNl rest with _ | ⟨l, ls⟩
      · exact absurd h (splitNl_ne_nil rest)
      · rw [h] at ih
        rcases ls with _ | ⟨l2, ls'⟩ <;>
          simp_all [joinNl]

/-- Length of a newline join. -/
theorem joinNl_length (ls : List Str) :
    (joinNl ls).length = (ls.map List.length).sum + (ls.length - 1) := by
  induction ls with
  | nil => rfl
  | cons l ls ih =>
    rcases ls with _ | ⟨l2, ls'⟩
    · simp [joinNl]
    · simp only [joinNl] at ih ⊢
      simp only [List.length_append, List.length_cons, List.map_cons,
        List.sum_cons] at ih ⊢
      omega

/-- No line produced by `splitNl` contains a newline. -/
theorem splitNl_no_nl (c : Str) : ∀ l ∈ splitNl c, '\n' ∉ l := by
  induction c with
  | nil => intro l hl; simp [splitNl] at hl; simp [hl]
  | cons ch rest ih =>
    intro l hl
    simp only [splitNl] at hl
    split at hl
    · rcases List.mem_cons.mp hl with rfl | hl
      · simp
      · exact ih l hl
    · rcases h : splitNl rest with _ | ⟨l0, ls⟩
      · exact absurd h (splitNl_ne_nil rest)
      · rw [h] at hl
        rcases List.mem_cons.mp hl with rfl | hl
        · intro hmem
          rcases List.mem_cons.mp hmem with rfl | hmem
          · simp_all
          · exact ih l0 (by simp [h]) hmem
        · exact ih l (by simp [h, hl])

/-- A newline-free line splits to itself. -/
theorem splitNl_of_no_nl (l : Str) (h : '\n' ∉ l) : splitNl l = [l] := by
  induction l with
  | nil => rfl
  | cons ch rest ih =>
    simp only [splitNl]
    rw [if_neg (by simp at h; exact fun hc => h.1 hc.symm)]
    rw [ih (by simp at h; exact h.2)]

/-- Splitting at an explicit newline splits there first. -/
theorem splitNl_append_nl (l t : Str) (h : '\n' ∉ l) :
    splitNl (l ++ '\n' :: t) = l :: splitNl t := by
  induction l with
  | nil => simp [splitNl]
  | cons ch rest ih =>
    simp only [List.cons_append, splitNl]
    rw [if_neg (by simp at h; exact fun hc => h.1 hc.symm)]
    simp only [List.append_eq]
    rw [ih (by simp at h; exact h.2)]

/-- Rejoining then splitting newline-free lines is the identity. -/
theorem splitNl_joinNl (ls : List Str) (hne : ls ≠ [])
    (h : ∀ l ∈ ls, '\n' ∉ l) : splitNl (joinNl ls) = ls := by
  induction ls with
  | nil => exact absurd rfl hne
  | cons l ls ih =>
    rcases ls with _ | ⟨l2, ls'⟩
    · simp only [joinNl]
      exact splitNl_of_no_nl l (h l (by simp))
    · simp only [joinNl]
      rw [splitNl_append_nl l _ (h l (by simp))]
      rw [ih (by simp) (fun x hx => h x (by simp [hx]))]

/-- Carriage-return normalization never lengthens text. -/
theorem normalizeCR_length_le (c : Str) :
    (normalizeCR c).length ≤ c.length := by
  induction c using normalizeCR.induct <;> simp_all [normalizeCR] <;> omega

/-- Space-run collapsing never lengthens text. -/
theorem csGo_length_le (b : Bool) (l : Str) :
    (csGo b l).length ≤ l.length := by
  induction l generalizing b with
  | nil => simp [csGo]
  | cons c rest ih =>
    by_cases hc : c = ' '
    · subst hc
      simp only [csGo]
      split
      · exact (ih true).trans (by simp)
      · simpa using ih true
    · rw [show csGo b (c :: rest) = c :: csGo false rest by
        rcases b <;> simp [csGo, hc]]
      simpa using ih false

/-- Tab-run collapsing never lengthens text. -/
theorem ctGo_length_le (b : Bool) (l : Str) :
    (ctGo b l).length ≤ l.length := by
  induction l generalizing b with
  | nil => simp [ctGo]
  | cons c rest ih =>
    by_cases hc : c = '\t'
    · subst hc
      simp only [ctGo]
      split
      · exact (ih true).trans (by simp)
      · simpa using ih true
    · rw [show ctGo b (c :: rest) = c :: ctGo false rest by
        rcases b <;> simp [ctGo, hc]]
      simpa using ih false

/-- Newline-run collapsing never lengthens text. -/
theorem cnGo_length_le (run : Nat) (l : Str) :
    (cnGo run l).length ≤ l.length := by
  induction l generalizing run with
  | nil => simp [cnGo]
  | cons c rest ih =>
    by_cases hc : c = '\n'
    · subst hc
      simp only [cnGo]
      split
      · simpa using (ih (run + 1)).trans (by simp)
      · exact (ih (run + 1)).trans (by simp)
    · rw [show cnGo run (c :: rest) = c :: cnGo 0 rest by simp [cnGo, hc]]
      simpa using ih 0

/-- Stripping never lengthens text. -/
theorem strip_length_le (l : Str) : (strip l).length ≤ l.length := by
  unfold strip
  calc ((l.dropWhile pySpace).reverse.dropWhile pySpace).reverse.length
      = ((l.dropWhile pySpace).reverse.dropWhile pySpace).length := by
        rw [List.length_reverse]
    _ ≤ (l.dropWhile pySpace).reverse.length :=
        (List.dropWhile_suffix pySpace).length_le
    _ = (l.dropWhile pySpace).length := by rw [List.length_reverse]
    _ ≤ l.length := (List.dropWhile_suffix pySpace).length_le

/-- Characters of a stripped string come from the original. -/
theorem strip_mem (l : Str) (x : Char) (h : x ∈ strip l) : x ∈ l := by
  unfold strip at h
  rw [List.mem_reverse] at h
  have h2 := (List.dropWhile_sublist pySpace).subset h
  rw [List.mem_reverse] at h2
  exact (List.dropWhile_sublist pySpace).subset h2

/-- Characters produced by space collapsing are originals or spaces. -/
theorem csGo_mem (b : Bool) (l : Str) (x : Char) (h : x ∈ csGo b l) :
    x ∈ l ∨ x = ' ' := by
  induction l generalizing b with
  | nil => simp [csGo] at h
  | cons c rest ih =>
    by_cases hc : c = ' '
    · subst hc
      simp only [csGo] at h
      split at h
      · rcases ih true h with h2 | h2
        · exact Or.inl (by simp [h2])
        · exact Or.inr h2
      · rcases List.mem_cons.mp h with rfl | h
        · exact Or.inr rfl
        · rcases ih true h with h2 | h2
          · exact Or.inl (by simp [h2])
          · exact Or.inr h2
    · rw [show csGo b (c :: rest) = c :: csGo false rest by
        rcases b <;> simp [csGo, hc]] at h
      rcases List.mem_cons.mp h with rfl | h
      · exact Or.inl (by simp)
      · rcases ih false h with h2 | h2
        · exact Or.inl (by simp [h2])
        · exact Or.inr h2

/-- Characters produced by tab collapsing are originals or spaces. -/
theorem ctGo_mem (b : Bool) (l : Str) (x : Char) (h : x ∈ ctGo b l) :
    x ∈ l ∨ x = ' ' := by
  induction l generalizing b with
  | nil => simp [ctGo] at h
  | cons c rest ih =>
    by_cases hc : c = '\t'
    · subst hc
      simp only [ctGo] at h
      split at h
      · rcases ih true h with h2 | h2
        · exact Or.inl (by simp [h2])
        · exact Or.inr h2
      · rcases List.mem_cons.mp h with rfl | h
        · exact Or.inr rfl
        · rcases ih true h with h2 | h2
          · exact Or.inl (by simp [h2])
          · exact Or.inr h2
    · rw [show ctGo b (c :: rest) = c :: ctGo false rest by
        rcases b <;> simp [ctGo, hc]] at h
      rcases List.mem_cons.mp h with rfl | h
      · exact Or.inl (by simp)
      · rcases ih false h with h2 | h2
        · exact Or.inl (by simp [h2])
        · exact Or.inr h2

/-- Space collapsing distributes over an explicit newline. -/
theorem csGo_append_nl (l : Str) (b : Bool) (t : Str) :
    csGo b (l ++ '\n' :: t) = csGo b l ++ '\n' :: csGo false t := by
  induction l generalizing b with
  | nil => simp [csGo]
  | cons c rest ih =>
    by_cases hc : c = ' '
    · subst hc
      simp only [List.cons_append, csGo]
      split <;> simp [ih]
    · have h1 : csGo b (c :: (rest ++ '\n' :: t)) =
          c :: csGo false (rest ++ '\n' :: t) := by
        rcases b <;> simp [csGo, hc]
      have h2 : csGo b (c :: rest) = c :: csGo false rest := by
        rcases b <;> simp [csGo, hc]
      simp [h1, h2, ih]

/-- Tab collapsing distributes over an explicit newline. -/
theorem ctGo_append_nl (l : Str) (b : Bool) (t : Str) :
    ctGo b (l ++ '\n' :: t) = ctGo b l ++ '\n' :: ctGo false t := by
  induction l generalizing b with
  | nil => simp [ctGo]
  | cons c rest ih =>
    by_cases hc : c = '\t'
    · subst hc
      simp only [List.cons_append, ctGo]
      split <;> simp [ih]
    · have h1 : ctGo b (c :: (rest ++ '\n' :: t)) =
          c :: ctGo false (rest ++ '\n' :: t) := by
        rcases b <;> simp [ctGo, hc]
      have h2 : ctGo b (c :: rest) = c :: ctGo false rest := by
        rcases b <;> simp [ctGo, hc]
      simp [h1, h2, ih]

/-- Space collapsing distributes over a newline join. -/
theorem collapseSpaces_joinNl (ls : List Str) :
    collapseSpaces (joinNl ls) = joinNl (ls.map collapseSpaces) := by
  induction ls with
  | nil => rfl
  | cons l ls ih =>
    rcases ls with _ | ⟨l2, ls'⟩
    · rfl
    · simp only [joinNl, List.map_cons] at ih ⊢
      rw [collapseSpaces, csGo_append_nl]
      rw [collapseSpaces] at ih
      rw [ih]
      rfl

/-- Tab collapsing distributes over a newline join. -/
theorem collapseTabs_joinNl (ls : List Str) :
    collapseTabs (joinNl ls) = joinNl (ls.map collapseTabs) := by
  induction ls with
  | nil => rfl
  | cons l ls ih =>
    rcases ls with _ | ⟨l2, ls'⟩
    · rfl
    · simp only [joinNl, List.map_cons] at ih ⊢
      rw [collapseTabs, ctGo_append_nl]
      rw [collapseTabs] at ih
      rw [ih]
      rfl

/-- Stripping ignores a trailing space. -/
theorem strip_append_space (z : Str) : strip (z ++ [' ']) = strip z := by
  unfold strip
  rw [List.dropWhile_append]
  split
  · next hemp =>
    have hz : z.dropWhile pySpace = [] := by
      simpa using hemp
    rw [hz]
    simp [List.dropWhile]
  · rw [List.reverse_append]
    simp only [List.reverse_cons, List.reverse_nil, List.nil_append,
      List.singleton_append, List.dropWhile]
    rw [show pySpace ' ' = true by decide]
    simp

/-- The last character of a nonempty stripped string is not whitespace. -/
theorem strip_getLast_not_space (l : Str) (x : Char)
    (h : (strip l).getLast? = some x) : pySpace x = false := by
  unfold strip at h
  rw [List.getLast?_reverse] at h
  rcases hd : ((l.dropWhile pySpace).reverse.dropWhile pySpace) with _ | ⟨y, ys⟩
  · rw [hd] at h; cases h
  · rw [hd] at h
    injection h with h
    subst h
    exact dropWhile_head_false pySpace _ _ _ hd

/-- Space collapsing commutes with appending a space after a string whose
last character is not a space. -/
theorem csGo_append_space :
    ∀ (v : Str) (b : Bool) (c0 : Char), v.getLast? = some c0 → c0 ≠ ' ' →
      csGo b (v ++ [' ']) = csGo b v ++ [' '] := by
  intro v
  induction v with
  | nil => intro b c0 h; cases h
  | cons c rest ih =>
    intro b c0 h hc0
    rcases rest with _ | ⟨c2, rest'⟩
    · have hcc : c = c0 := by
        simpa using h
      subst hcc
      have hcs : c ≠ ' ' := hc0
      rcases b <;> simp [csGo, hcs]
    · rw [List.getLast?_cons_cons] at h
      by_cases hc : c = ' '
      · subst hc
        have h1 : csGo b ((' ' :: c2 :: rest') ++ [' ']) =
            if b then csGo true ((c2 :: rest') ++ [' '])
            else ' ' :: csGo true ((c2 :: rest') ++ [' ']) := by
          rcases b <;> simp [csGo]
        have h2 : csGo b (' ' :: c2 :: rest') =
            if b then csGo true (c2 :: rest')
            else ' ' :: csGo true (c2 :: rest') := by
          rcases b <;> simp [csGo]
        rw [h1, h2, ih true c0 h hc0]
        rcases b <;> simp
      · have h1 : csGo b ((c :: c2 :: rest') ++ [' ']) =
            c :: csGo false ((c2 :: rest') ++ [' ']) := by
          rcases b <;> simp [csGo, hc]
        have h2 : csGo b (c :: c2 :: rest') = c :: csGo false (c2 :: rest') := by
          rcases b <;> simp [csGo, hc]
        rw [h1, h2, ih false c0 h hc0]
        simp

/-- Tab collapsing commutes with appending any non-tab character. -/
theorem ctGo_append_nontab :
    ∀ (w : Str) (b : Bool) (c : Char), c ≠ '\t' →
      ctGo b (w ++ [c]) = ctGo b w ++ [c] := by
  intro w
  induction w with
  | nil =>
    intro b c hc
    rcases b <;> simp [ctGo, hc]
  | cons a rest ih =>
    intro b c hc
    by_cases ha : a = '\t'
    · subst ha
      have h1 : ctGo b (('\t' :: rest) ++ [c]) =
          if b then ctGo true (rest ++ [c])
          else ' ' :: ctGo true (rest ++ [c]) := by
        rcases b <;> simp [ctGo]
      have h2 : ctGo b ('\t' :: rest) =
          if b then ctGo true rest else ' ' :: ctGo true rest := by
        rcases b <;> simp [ctGo]
      rw [h1, h2, ih true c hc]
      rcases b <;> simp
    · have h1 : ctGo b ((a :: rest) ++ [c]) =
          a :: ctGo false (rest ++ [c]) := by
        rcases b <;> simp [ctGo, ha]
      have h2 : ctGo b (a :: rest) = a :: ctGo false rest := by
        rcases b <;> simp [ctGo, ha]
      rw [h1, h2, ih false c hc]
      simp

/-- Output lines of the line-break-repair loop: each is the stripped input
line, possibly with one appended space (only when the stripped line is
nonempty). -/
theorem fixGo_forall₂ (ls : List Str) :
    List.Forall₂
      (fun l f => f = strip l ∨ (strip l ≠ [] ∧ f = strip l ++ [' ']))
      ls (fixGo ls).1 := by
  induction ls with
  | nil => exact List.Forall₂.nil
  | cons l rest ih =>
    cases rest with
    | nil => exact List.Forall₂.cons (Or.inl rfl) List.Forall₂.nil
    | cons l2 rest2 =>
      simp only [fixGo]
      split
      · next hcond =>
        refine List.Forall₂.cons ?_ ih
        refine Or.inr ⟨?_, rfl⟩
        simp only [Bool.and_eq_true, Bool.not_eq_true'] at hcond
        have h1 : (strip l).isEmpty = false := hcond.1.1.1
        simpa using h1
      · exact List.Forall₂.cons (Or.inl rfl) ih

/-- Line-break repair emits no newline inside a line. -/
theorem fixGo_no_nl (ls : List Str) (h : ∀ l ∈ ls, '\n' ∉ l) :
    ∀ f ∈ (fixGo ls).1, '\n' ∉ f := by
  have hF := fixGo_forall₂ ls
  generalize hfs : (fixGo ls).1 = fs at hF ⊢
  clear hfs
  induction hF with
  | nil => intro f hf; cases hf
  | cons hR htail ih =>
    next l f ls' fs' =>
      intro g hg
      rcases List.mem_cons.mp hg with rfl | hg
      · have hl : '\n' ∉ l := h l (by simp)
        have hstrip : '\n' ∉ strip l := fun hx => hl (strip_mem l _ hx)
        rcases hR with rfl | ⟨_, rfl⟩
        · exact hstrip
        · intro hx
          rcases List.mem_append.mp hx with hx | hx
          · exact hstrip hx
          · simp at hx
      · exact ih (fun x hx => h x (by simp [hx])) g hg

/-- Per-line bound: stripping after collapsing a repaired line never exceeds
the original line length. -/
theorem line_clean_length_le (l f : Str)
    (hR : f = strip l ∨ (strip l ≠ [] ∧ f = strip l ++ [' '])) :
    (strip (collapseTabs (collapseSpaces f))).length ≤ l.length := by
  rcases hR with rfl | ⟨hne, rfl⟩
  · calc (strip (collapseTabs (collapseSpaces (strip l)))).length
        ≤ (collapseTabs (collapseSpaces (strip l))).length := strip_length_le _
      _ ≤ (collapseSpaces (strip l)).length := ctGo_length_le false _
      _ ≤ (strip l).length := csGo_length_le false _
      _ ≤ l.length := strip_length_le l
  · rcases hx : (strip l).getLast? with _ | c0
    · exact absurd (List.getLast?_eq_none_iff.mp hx) hne
    · have hc0 : pySpace c0 = false := strip_getLast_not_space l c0 hx
      have hc0s : c0 ≠ ' ' := by
        intro h
        subst h
        exact absurd hc0 (by decide)
      rw [show collapseSpaces (strip l ++ [' '])
            = collapseSpaces (strip l) ++ [' '] from
          csGo_append_space (strip l) false c0 hx hc0s]
      rw [show collapseTabs (collapseSpaces (strip l) ++ [' '])
            = collapseTabs (collapseSpaces (strip l)) ++ [' '] from
          ctGo_append_nontab (collapseSpaces (strip l)) false ' ' (by decide)]
      rw [strip_append_space]
      calc (strip (ctGo false (collapseSpaces (strip l)))).length
          ≤ (ctGo false (collapseSpaces (strip l))).length := strip_length_le _
        _ ≤ (collapseSpaces (strip l)).length := ctGo_length_le false _
        _ ≤ (strip l).length := csGo_length_le false _
        _ ≤ l.length := strip_length_le l

/-- Summed per-line bound over the repaired lines. -/
theorem processed_sum_le (L fs : List Str)
    (hF : List.Forall₂
      (fun l f => f = strip l ∨ (strip l ≠ [] ∧ f = strip l ++ [' ']))
      L fs) :
    ((fs.map fun f => (strip (collapseTabs (collapseSpaces f))).length).sum)
      ≤ (L.map List.length).sum := by
  induction hF with
  | nil => simp
  | cons hR htail ih =>
    simp only [List.map_cons, List.sum_cons]
    exact Nat.add_le_add (line_clean_length_le _ _ hR) ih

/-- Joined length is monotone along sublists of the line list. -/
theorem joinNl_length_le_of_sublist (l1 l2 : List Str)
    (h : List.Sublist l1 l2) :
    (joinNl l1).length ≤ (joinNl l2).length := by
  rw [joinNl_length, joinNl_length]
  have hsum : ((l1.map List.length).sum) ≤ ((l2.map List.length).sum) :=
    List.Sublist.sum_le_sum (h.map List.length) (fun a _ => Nat.zero_le a)
  have hlen := h.length_le
  omega

/-- The kept lines of header/footer removal form a sublist of the input. -/
theorem removeHFGo_sublist (ls : List Str) :
    List.Sublist (removeHFGo ls).1 ls := by
  induction ls with
  | nil => simp [removeHFGo]
  | cons l rest ih =>
    simp only [removeHFGo]
    split_ifs
    · exact ih.cons l
    · exact ih.cons l
    · exact ih.cons₂ l

/-- Header/footer removal never lengthens content. -/
theorem removeHeadersFooters_length_le (c : Str) :
    (removeHeadersFooters c).1.length ≤ c.length := by
  have h := joinNl_length_le_of_sublist _ _ (removeHFGo_sublist (splitNl c))
  rw [joinNl_splitNl] at h
  exact h

/-- Invisible-character removal never lengthens content. -/
theorem removeInvisibleChars_length_le (c : Str) :
    (removeInvisibleChars c).1.length ≤ c.length :=
  List.length_filter_le _ c

/-- Size bounds for the aggressive redundancy filter. -/
theorem redGo_bounds :
    ∀ (ls acc : List Str),
      (((redGo acc ls).map List.length).sum ≤
        (acc.map List.length).sum +
          (ls.map fun l => (strip l).length).sum) ∧
      (redGo acc ls).length ≤ acc.length + ls.length := by
  intro ls
  induction ls with
  | nil => intro acc; simp [redGo]
  | cons l rest ih =>
    intro acc
    simp only [redGo]
    split_ifs
    · have := ih acc
      constructor
      · refine (this.1).trans ?_
        simp only [List.map_cons, List.sum_cons]
        omega
      · refine (this.2).trans ?_
        simp
    · have := ih acc
      constructor
      · refine (this.1).trans ?_
        simp only [List.map_cons, List.sum_cons]
        omega
      · refine (this.2).trans ?_
        simp
    · have := ih acc
      constructor
      · refine (this.1).trans ?_
        simp only [List.map_cons, List.sum_cons]
        omega
      · refine (this.2).trans ?_
        simp
    · have := ih (acc ++ [strip l])
      constructor
      · refine (this.1).trans ?_
        simp only [List.map_append, List.sum_append, List.map_cons,
          List.sum_cons, List.map_nil, List.sum_nil]
        omega
      · refine (this.2).trans ?_
        simp only [List.length_append, List.length_cons, List.length_nil]
        omega

/-- The aggressive redundancy filter never lengthens content. -/
theorem removeRedundantContent_length_le (c : Str) :
    (removeRedundantContent c).length ≤ c.length := by
  unfold removeRedundantContent
  rw [joinNl_length]
  obtain ⟨hsum, hlen⟩ := redGo_bounds (splitNl c) []
  have hstr : ((splitNl c).map fun l => (strip l).length).sum ≤
      ((splitNl c).map List.length).sum :=
    List.sum_le_sum (fun l _ => strip_length_le l)
  have hc : c.length = ((splitNl c).map List.length).sum +
      ((splitNl c).length - 1) := by
    conv_lhs => rw [← joinNl_splitNl c]
    exact joinNl_length _
  simp only [List.map_nil, List.sum_nil, List.length_nil] at hsum hlen
  omega

/-- The combined line-break-repair plus whitespace-standardization passes
never lengthen content. -/
theorem standardize_fix_length_le (x : Str) :
    (standardizeWhitespace (fixLineBreaks x).1).1.length ≤ x.length := by
  have hF := fixGo_forall₂ (splitNl (normalizeCR x))
  have hlen := hF.length_eq
  have hnn : ∀ f ∈ (fixGo (splitNl (normalizeCR x))).1, '\n' ∉ f :=
    fixGo_no_nl _ (splitNl_no_nl (normalizeCR x))
  have hne : (fixGo (splitNl (normalizeCR x))).1 ≠ [] := by
    intro h
    have := splitNl_ne_nil (normalizeCR x)
    rw [h] at hlen
    simp at hlen
    exact this hlen
  have hfix : (fixLineBreaks x).1 = joinNl (fixGo (splitNl (normalizeCR x))).1 :=
    rfl
  rw [hfix]
  show (collapseNls (joinNl ((splitNl (collapseTabs (collapseSpaces
      (joinNl (fixGo (splitNl (normalizeCR x))).1)))).map strip))).length ≤
    x.length
  rw [collapseSpaces_joinNl, collapseTabs_joinNl]
  rw [splitNl_joinNl _ (by simpa using hne) ?hnl]
  case hnl =>
    intro f hf
    simp only [List.map_map, List.mem_map] at hf
    obtain ⟨g, hg, rfl⟩ := hf
    intro hmem
    rcases ctGo_mem false _ _ hmem with hmem2 | hmem2
    · rcases csGo_mem false _ _ hmem2 with hmem3 | hmem3
      · exact hnn g hg hmem3
      · cases hmem3
    · cases hmem2
  refine (cnGo_length_le 0 _).trans ?_
  rw [joinNl_length]
  have hsum : (((((fixGo (splitNl (normalizeCR x))).1.map collapseSpaces).map
        collapseTabs).map strip).map List.length).sum ≤
      (((splitNl (normalizeCR x)).map List.length).sum) := by
    have := processed_sum_le _ _ hF
    simp only [List.map_map] at this ⊢
    exact this
  have hcount : ((((fixGo (splitNl (normalizeCR x))).1.map
        collapseSpaces).map collapseTabs).map strip).length =
      (splitNl (normalizeCR x)).length := by
    simp [← hlen]
  have hx : (normalizeCR x).length =
      (((splitNl (normalizeCR x)).map List.length).sum) +
        ((splitNl (normalizeCR x)).length - 1) := by
    conv_lhs => rw [← joinNl_splitNl (normalizeCR x)]
    exact joinNl_length _
  have hcr := normalizeCR_length_le x
  rw [hcount]
  omega

/-- The full per-element content pipeline never lengthens content, provided
the unicode normalizer does not. -/
theorem cleanElementContent_length_le (nfc : Str → Str)
    (hn : ∀ s, (nfc s).length ≤ s.length) (lvl : CleaningLevel) (c : Str)
    (st : CleaningStats) :
    (cleanElementContent nfc lvl c st).1.length ≤ c.length := by
  have key : ∀ y : Str, y.length ≤ c.length →
      (standardizeWhitespace (fixLineBreaks
        (removeInvisibleChars (nfc y)).1).1).1.length ≤ c.length := by
    intro y hy
    refine (standardize_fix_length_le _).trans ?_
    refine (removeInvisibleChars_length_le _).trans ?_
    exact (hn y).trans hy
  rcases lvl with _ | _ | _
  all_goals simp only [cleanElementContent]
  · simpa using key c le_rfl
  · simpa using key _ (removeHeadersFooters_length_le c)
  · simpa using (removeRedundantContent_length_le _).trans
      (key _ (removeHeadersFooters_length_le c))

/-- A successfully cleaned element's content is no longer than the original
element's content. -/
theorem cleanElement_content_le (nfc : Str → Str)
    (hn : ∀ s, (nfc s).length ≤ s.length) (lvl : CleaningLevel)
    (e : DocumentElement) (st : CleaningStats) (ce : DocumentElement)
    (h : (cleanElement nfc lvl e st).1 = some ce) :
    ce.content.length ≤ e.content.length := by
  have h' := h
  simp only [cleanElement] at h'
  split_ifs at h' with hs
  have h2 := Option.some.inj h'
  rw [← h2]
  exact cleanElementContent_length_le nfc hn lvl e.content st

/-- The total cleaned character count of the element loop never exceeds the
total input character count. -/
theorem cleanLoop_cleaned_sum_le (nfc : Str → Str)
    (hn : ∀ s, (nfc s).length ≤ s.length) (detect : Str → Option Str)
    (lvl : CleaningLevel) (es : List DocumentElement) (st : CleaningStats) :
    (((cleanLoop nfc detect lvl st es).1.map
        fun e => e.content.length).sum) ≤
      ((es.map fun e => e.content.length).sum) := by
  induction es generalizing st with
  | nil => simp [cleanLoop]
  | cons e rest ih =>
    simp only [cleanLoop]
    rcases hce : (cleanElement nfc lvl e st).1 with _ | ce
    · simp only []
      have := ih (cleanElement nfc lvl e st).2
      simp only [List.map_cons, List.sum_cons]
      omega
    · simp only []
      split_ifs with hsc
      · have := ih (cleanElement nfc lvl e st).2
        simp only [List.map_cons, List.sum_cons]
        omega
      all_goals
        have h1 := ih (cleanElement nfc lvl e st).2
        have h2 := cleanElement_content_le nfc hn lvl e st ce hce
        have hgoal : (List.map (fun x => x.content.length)
            (ce :: (cleanLoop nfc detect lvl
              (cleanElement nfc lvl e st).2 rest).1)).sum ≤
            (List.map (fun x => x.content.length) (e :: rest)).sum := by
          simp only [List.map_cons, List.sum_cons]
          omega
        exact hgoal

/-- Range facts for the reduction percentage under
`cleaned_chars ≤ original_chars`. -/
theorem getReductionPercentage_range (st : CleaningStats)
    (h : st.cleaned_chars ≤ st.original_chars) :
    0 ≤ getReductionPercentage st ∧ getReductionPercentage st ≤ 100 ∧
      (st.original_chars = st.cleaned_chars →
        getReductionPercentage st = 0) ∧
      (st.original_chars = 0 → getReductionPercentage st = 0) := by
  unfold getReductionPercentage
  split_ifs with h0
  · norm_num
  · have hpos : (0 : ℚ) < st.original_chars := by
      exact_mod_cast Nat.pos_of_ne_zero h0
    have hc : (st.cleaned_chars : ℚ) ≤ st.original_chars := by exact_mod_cast h
    have hc0 : (0 : ℚ) ≤ st.cleaned_chars := Nat.cast_nonneg _
    refine ⟨?_, ?_, ?_, fun hx => absurd hx h0⟩
    · exact mul_nonneg (div_nonneg (by linarith) hpos.le) (by norm_num)
    · calc ((st.original_chars : ℚ) - st.cleaned_chars) /
            st.original_chars * 100 ≤ 1 * 100 :=
          mul_le_mul_of_nonneg_right
            ((div_le_one hpos).mpr (by linarith)) (by norm_num)
        _ = 100 := by norm_num
    · intro he
      have hq : (st.original_chars : ℚ) = st.cleaned_chars := by
        exact_mod_cast he
      rw [hq, sub_self, zero_div, zero_mul]

/-- Characters of a split line come from the split content. -/
theorem splitNl_sub : ∀ (c : Str), ∀ l ∈ splitNl c, ∀ x ∈ l, x ∈ c := by
  intro c
  induction c with
  | nil =>
    intro l hl x hx
    simp [splitNl] at hl
    subst hl
    cases hx
  | cons ch rest ih =>
    intro l hl x hx
    simp only [splitNl] at hl
    split at hl
    · rcases List.mem_cons.mp hl with rfl | hl
      · cases hx
      · exact List.mem_cons_of_mem _ (ih l hl x hx)
    · rcases hrec : splitNl rest with _ | ⟨l0, ls⟩
      · rw [hrec] at hl
        simp only [List.mem_singleton] at hl
        subst hl
        exact List.mem_cons.mpr (Or.inl (by simpa using hx))
      · rw [hrec] at hl
        rcases List.mem_cons.mp hl with rfl | hl
        · rcases List.mem_cons.mp hx with rfl | hx
          · exact List.mem_cons_self _ _
          · exact List.mem_cons_of_mem _
              (ih l0 (by rw [hrec]; exact List.mem_cons_self _ _) x hx)
        · exact List.mem_cons_of_mem _
            (ih l (by rw [hrec]; exact List.mem_cons_of_mem _ hl) x hx)

/-- Characters of a joined line list come from a line or are newlines. -/
theorem joinNl_mem : ∀ (ls : List Str) (x : Char), x ∈ joinNl ls →
    (∃ l ∈ ls, x ∈ l) ∨ x = '\n' := by
  intro ls
  induction ls with
  | nil => intro x hx; cases hx
  | cons l ls2 ih =>
    intro x hx
    cases ls2 with
    | nil => exact Or.inl ⟨l, by simp, by simpa [joinNl] using hx⟩
    | cons l2 ls3 =>
      simp only [joinNl] at hx
      rcases List.mem_append.mp hx with hx | hx
      · exact Or.inl ⟨l, by simp, hx⟩
      · rcases List.mem_cons.mp hx with rfl | hx
        · exact Or.inr rfl
        · rcases ih x hx with ⟨l3, hl3, hxl⟩ | rfl
          · exact Or.inl ⟨l3, List.mem_cons_of_mem _ hl3, hxl⟩
          · exact Or.inr rfl

/-- Characters after line-ending normalization are originals or newlines. -/
theorem normalizeCR_mem : ∀ (c : Str), ∀ x ∈ normalizeCR c, x ∈ c ∨ x = '\n' := by
  intro c
  induction c using normalizeCR.induct with
  | case1 => intro x hx; cases hx
  | case2 rest ih =>
    intro x hx
    simp only [normalizeCR] at hx
    rcases List.mem_cons.mp hx with rfl | hx
    · exact Or.inr rfl
    · rcases ih x hx with h | h
      · exact Or.inl (by simp [h])
      · exact Or.inr h
  | case3 rest h1 ih =>
    intro x hx
    simp only [normalizeCR] at hx
    rcases List.mem_cons.mp hx with rfl | hx
    · exact Or.inr rfl
    · rcases ih x hx with h | h
      · exact Or.inl (by simp [h])
      · exact Or.inr h
  | case4 ch rest h1 h2 ih =>
    intro x hx
    simp only [normalizeCR] at hx
    rcases List.mem_cons.mp hx with rfl | hx
    · exact Or.inl (List.mem_cons_self _ _)
    · rcases ih x hx with h | h
      · exact Or.inl (by simp [h])
      · exact Or.inr h

/-- Characters after blank-line collapsing are originals. -/
theorem cnGo_mem : ∀ (l : Str) (r : Nat), ∀ x ∈ cnGo r l, x ∈ l := by
  intro l
  induction l with
  | nil => intro r x hx; cases hx
  | cons c rest ih =>
    intro r x hx
    by_cases hc : c = '\n'
    · subst hc
      simp only [cnGo] at hx
      split at hx
      · rcases List.mem_cons.mp hx with rfl | hx
        · exact List.mem_cons_self _ _
        · exact List.mem_cons_of_mem _ (ih _ x hx)
      · exact List.mem_cons_of_mem _ (ih _ x hx)
    · rw [show cnGo r (c :: rest) = c :: cnGo 0 rest by
        simp [cnGo, hc]] at hx
      rcases List.mem_cons.mp hx with rfl | hx
      · exact List.mem_cons_self _ _
      · exact List.mem_cons_of_mem _ (ih _ x hx)

/-- Relating members of the relational image of the line-break repair. -/
theorem forall₂_mem_right {α β : Type} {R : α → β → Prop} :
    ∀ {ls : List α} {fs : List β}, List.Forall₂ R ls fs → ∀ f ∈ fs,
      ∃ l ∈ ls, R l f := by
  intro ls fs h
  induction h with
  | nil => intro f hf; cases hf
  | cons hR htail ih =>
    intro f hf
    rcases List.mem_cons.mp hf with rfl | hf
    · exact ⟨_, List.mem_cons_self _ _, hR⟩
    · obtain ⟨l, hl, hR2⟩ := ih f hf
      exact ⟨l, List.mem_cons_of_mem _ hl, hR2⟩

/-- Characters after line-break repair are originals, spaces or newlines. -/
theorem fixLineBreaks_mem (c : Str) (x : Char)
    (h : x ∈ (fixLineBreaks c).1) : x ∈ c ∨ x = ' ' ∨ x = '\n' := by
  have hF := fixGo_forall₂ (splitNl (normalizeCR c))
  rcases joinNl_mem _ x h with ⟨f, hf, hxf⟩ | rfl
  · obtain ⟨l, hl, hR⟩ := forall₂_mem_right hF f hf
    have hxl : x ∈ strip l ∨ x = ' ' := by
      rcases hR with rfl | ⟨_, rfl⟩
      · exact Or.inl hxf
      · rcases List.mem_append.mp hxf with h2 | h2
        · exact Or.inl h2
        · simp only [List.mem_singleton] at h2
          exact Or.inr h2
    rcases hxl with h2 | rfl
    · have h3 : x ∈ normalizeCR c :=
        splitNl_sub (normalizeCR c) l hl x (strip_mem l x h2)
      rcases normalizeCR_mem c x h3 with h4 | h4
      · exact Or.inl h4
      · exact Or.inr (Or.inr h4)
    · exact Or.inr (Or.inl rfl)
  · exact Or.inr (Or.inr rfl)

/-- Characters after whitespace standardization are originals, spaces or
newlines. -/
theorem standardizeWhitespace_mem (c : Str) (x : Char)
    (h : x ∈ (standardizeWhitespace c).1) : x ∈ c ∨ x = ' ' ∨ x = '\n' := by
  have h2 := cnGo_mem _ 0 x h
  rcases joinNl_mem _ x h2 with ⟨f, hf, hxf⟩ | rfl
  · simp only [List.mem_map] at hf
    obtain ⟨l, hl, rfl⟩ := hf
    have h3 : x ∈ collapseTabs (collapseSpaces c) :=
      splitNl_sub _ l hl x (strip_mem l x hxf)
    rcases ctGo_mem false _ x h3 with h4 | h4
    · rcases csGo_mem false _ x h4 with h5 | h5
      · exact Or.inl h5
      · exact Or.inr (Or.inl h5)
    · exact Or.inr (Or.inl h4)
  · exact Or.inr (Or.inr rfl)

/-- Lines kept by the aggressive redundancy filter are accumulator entries or
strips of input lines. -/
theorem redGo_mem : ∀ (ls acc : List Str) (m : Str), m ∈ redGo acc ls →
    m ∈ acc ∨ ∃ l ∈ ls, m = strip l := by
  intro ls
  induction ls with
  | nil =>
    intro acc m hm
    exact Or.inl (by simpa [redGo] using hm)
  | cons l rest ih =>
    intro acc m hm
    simp only [redGo] at hm
    split_ifs at hm
    · rcases ih acc m hm with h | ⟨l2, hl2, h⟩
      · exact Or.inl h
      · exact Or.inr ⟨l2, List.mem_cons_of_mem _ hl2, h⟩
    · rcases ih acc m hm with h | ⟨l2, hl2, h⟩
      · exact Or.inl h
      · exact Or.inr ⟨l2, List.mem_cons_of_mem _ hl2, h⟩
    · rcases ih acc m hm with h | ⟨l2, hl2, h⟩
      · exact Or.inl h
      · exact Or.inr ⟨l2, List.mem_cons_of_mem _ hl2, h⟩
    · rcases ih (acc ++ [strip l]) m hm with h | ⟨l2, hl2, h⟩
      · rcases List.mem_append.mp h with h2 | h2
        · exact Or.inl h2
        · simp only [List.mem_singleton] at h2
          exact Or.inr ⟨l, List.mem_cons_self _ _, h2⟩
      · exact Or.inr ⟨l2, List.mem_cons_of_mem _ hl2, h⟩

/-- Characters after redundancy removal are originals or newlines. -/
theorem removeRedundantContent_mem (c : Str) (x : Char)
    (h : x ∈ removeRedundantContent c) : x ∈ c ∨ x = '\n' := by
  unfold removeRedundantContent at h
  rcases joinNl_mem _ x h with ⟨m, hm, hxm⟩ | rfl
  · rcases redGo_mem (splitNl c) [] m hm with h2 | ⟨l, hl, rfl⟩
    · cases h2
    · exact Or.inl (splitNl_sub c l hl x (strip_mem l x hxm))
  · exact Or.inr rfl

/-- Characters after header/footer removal are originals or newlines. -/
theorem removeHeadersFooters_mem (c : Str) (x : Char)
    (h : x ∈ (removeHeadersFooters c).1) : x ∈ c ∨ x = '\n' := by
  rcases joinNl_mem _ x h with ⟨l, hl, hx⟩ | rfl
  · exact Or.inl (splitNl_sub c l
      ((removeHFGo_sublist (splitNl c)).subset hl) x hx)
  · exact Or.inr rfl

/-- Invisible-character removal leaves no removable character behind. -/
theorem removeInvisibleChars_noBad (c : Str) :
    NoBad (removeInvisibleChars c).1 := by
  intro x hx
  have h2 := List.of_mem_filter hx
  simpa using h2

/-- Invisible-character removal is the identity with a zero count on content
free of removable characters. -/
theorem removeInvisibleChars_noBad_eq (c : Str) (h : NoBad c) :
    removeInvisibleChars c = (c, 0) := by
  have hf : c.filter (fun ch => !isBadChar ch) = c :=
    List.filter_eq_self.mpr (fun a ha => by simp [h a ha])
  simp [removeInvisibleChars, hf]

/-- Header/footer removal preserves freedom from removable characters. -/
theorem removeHeadersFooters_noBad (c : Str) (h : NoBad c) :
    NoBad (removeHeadersFooters c).1 := by
  intro x hx
  rcases removeHeadersFooters_mem c x hx with h2 | rfl
  · exact h x h2
  · decide

/-- Redundancy removal preserves freedom from removable characters. -/
theorem removeRedundantContent_noBad (c : Str) (h : NoBad c) :
    NoBad (removeRedundantContent c) := by
  intro x hx
  rcases removeRedundantContent_mem c x hx with h2 | rfl
  · exact h x h2
  · decide

/-- Every content produced by the element cleaning pipeline is free of
removable characters. -/
theorem cleanElementContent_noBad (nfc : Str → Str) (lvl : CleaningLevel)
    (c : Str) (st : CleaningStats) :
    NoBad (cleanElementContent nfc lvl c st).1 := by
  have base : ∀ y : Str, NoBad (standardizeWhitespace (fixLineBreaks
      (removeInvisibleChars (nfc y)).1).1).1 := by
    intro y x hx
    rcases standardizeWhitespace_mem _ x hx with h | h | h
    · rcases fixLineBreaks_mem _ x h with h2 | h2 | h2
      · exact removeInvisibleChars_noBad _ x h2
      · subst h2; decide
      · subst h2; decide
    · subst h; decide
    · subst h; decide
  rcases lvl with _ | _ | _
  all_goals simp only [cleanElementContent]
  · simpa using base c
  · simpa using base ((removeHeadersFooters c).1)
  · simpa using removeRedundantContent_noBad _ (base ((removeHeadersFooters c).1))

/-- On content free of removable characters (and a unicode normalizer
preserving that freedom) the cleaning pipeline leaves the
invisible-character counter unchanged. -/
theorem cleanElementContent_invisible_preserved (nfc : Str → Str)
    (hn : ∀ s, NoBad s → NoBad (nfc s)) (lvl : CleaningLevel) (c : Str)
    (st : CleaningStats) (hc : NoBad c) :
    (cleanElementContent nfc lvl c st).2.invisible_chars_removed
      = st.invisible_chars_removed := by
  rcases lvl with _ | _ | _
  · have hinv := removeInvisibleChars_noBad_eq _ (hn _ hc)
    simp only [cleanElementContent]
    simp [hinv]
    split_ifs <;> rfl
  · have hinv := removeInvisibleChars_noBad_eq _
      (hn _ (removeHeadersFooters_noBad c hc))
    simp only [cleanElementContent]
    simp [hinv]
    split_ifs <;> rfl
  · have hinv := removeInvisibleChars_noBad_eq _
      (hn _ (removeHeadersFooters_noBad c hc))
    simp only [cleanElementContent]
    simp [hinv]
    split_ifs <;> rfl

/-- A successfully cleaned element's content is free of removable
characters. -/
theorem cleanElement_noBad (nfc : Str → Str) (lvl : CleaningLevel)
    (e : DocumentElement) (st : CleaningStats) (ce : DocumentElement)
    (h : (cleanElement nfc lvl e st).1 = some ce) : NoBad ce.content := by
  have h' := h
  simp only [cleanElement] at h'
  split_ifs at h' with hs
  have h2 := Option.some.inj h'
  rw [← h2]
  exact cleanElementContent_noBad nfc lvl e.content st

/-- On an element whose content is free of removable characters, cleaning
leaves the invisible-character counter unchanged. -/
theorem cleanElement_invisible_preserved (nfc : Str → Str)
    (hn : ∀ s, NoBad s → NoBad (nfc s)) (lvl : CleaningLevel)
    (e : DocumentElement) (st : CleaningStats) (he : NoBad e.content) :
    (cleanElement nfc lvl e st).2.invisible_chars_removed
      = st.invisible_chars_removed := by
  simp only [cleanElement]
  split_ifs
  · rfl
  · exact cleanElementContent_invisible_preserved nfc hn lvl e.content st he

/-- Every element kept by the element loop has content free of removable
characters. -/
theorem cleanLoop_noBad (nfc : Str → Str) (detect : Str → Option Str)
    (lvl : CleaningLevel) (es : List DocumentElement) :
    ∀ st : CleaningStats, ∀ ce ∈ (cleanLoop nfc detect lvl st es).1,
      NoBad ce.content := by
  induction es with
  | nil => intro st ce h; cases h
  | cons e rest ih =>
    intro st
    simp only [cleanLoop]
    rcases hce : (cleanElement nfc lvl e st).1 with _ | ce0
    · simp only []
      exact ih _
    · simp only []
      split_ifs with hsc
      · exact ih _
      all_goals
        intro ce hm
        have hm2 : ce ∈ ce0 :: (cleanLoop nfc detect lvl
            (cleanElement nfc lvl e st).2 rest).1 := hm
        rcases List.mem_cons.mp hm2 with rfl | hm3
        · exact cleanElement_noBad nfc lvl e st ce hce
        · exact ih _ ce hm3

/-- On elements whose contents are free of removable characters, the element
loop leaves the invisible-character counter unchanged. -/
theorem cleanLoop_invisible_preserved (nfc : Str → Str)
    (hn : ∀ s, NoBad s → NoBad (nfc s)) (detect : Str → Option Str)
    (lvl : CleaningLevel) (es : List DocumentElement) :
    ∀ st : CleaningStats, (∀ e ∈ es, NoBad e.content) →
      (cleanLoop nfc detect lvl st es).2.2.invisible_chars_removed
        = st.invisible_chars_removed := by
  induction es with
  | nil => intro st _; rfl
  | cons e rest ih =>
    intro st hes
    have hbase := cleanElement_invisible_preserved nfc hn lvl e st
      (hes e (List.mem_cons_self _ _))
    have hrest : ∀ x ∈ rest, NoBad x.content :=
      fun x hx => hes x (List.mem_cons_of_mem _ hx)
    simp only [cleanLoop]
    rcases hce : (cleanElement nfc lvl e st).1 with _ | ce
    · simp only []
      exact (ih _ hrest).trans hbase
    · simp only []
      split_ifs with hsc
      all_goals exact (ih _ hrest).trans hbase

/-- Unfolding of `List.indexOf` on a cons cell. -/
theorem indexOf_cons_eq (a b : Str) (l : List Str) :
    List.indexOf a (b :: l) = if b == a then 0 else List.indexOf a l + 1 := by
  simp [List.indexOf, List.findIdx_cons]

/-- The first-occurrence index ignores a suffix when the key occurs in the
prefix. -/
theorem indexOf_append_left (x : Str) : ∀ (l t : List Str), x ∈ l →
    List.indexOf x (l ++ t) = List.indexOf x l := by
  intro l
  induction l with
  | nil => intro t hx; cases hx
  | cons b rest ih =>
    intro t hx
    by_cases hb : b = x
    · subst hb
      rw [List.cons_append, indexOf_cons_eq, indexOf_cons_eq]
      simp
    · have hx2 : x ∈ rest := by
        rcases List.mem_cons.mp hx with rfl | h2
        · exact absurd rfl hb
        · exact h2
      rw [List.cons_append, indexOf_cons_eq, indexOf_cons_eq, ih t hx2]

/-- The first-occurrence index of a key absent from the prefix skips over
it. -/
theorem indexOf_append_abs (x : Str) : ∀ (l t : List Str), x ∉ l →
    List.indexOf x (l ++ t) = l.length + List.indexOf x t := by
  intro l
  induction l with
  | nil => intro t hx; simp
  | cons b rest ih =>
    intro t hx
    have hb : b ≠ x := fun h => hx (h ▸ List.mem_cons_self _ _)
    have hx2 : x ∉ rest := fun h => hx (List.mem_cons_of_mem _ h)
    rw [List.cons_append, indexOf_cons_eq]
    rw [if_neg (by simpa using hb), ih t hx2]
    simp [List.length_cons]
    omega

/-- A key occurring in a list has first-occurrence index below the
length. -/
theorem indexOf_lt_len (x : Str) : ∀ l : List Str, x ∈ l →
    List.indexOf x l < l.length := by
  intro l
  induction l with
  | nil => intro h; cases h
  | cons b rest ih =>
    intro h
    rw [indexOf_cons_eq]
    split_ifs with hb
    · simp
    · have hx : x ∈ rest := by
        rcases List.mem_cons.mp h with rfl | h2
        · simp at hb
        · exact h2
      simp only [List.length_cons]
      exact Nat.succ_lt_succ (ih hx)

/-- Case analysis of membership in a bumped language-count list (requires
pairwise-distinct keys). -/
theorem bump_mem : ∀ (d : List (Str × Nat)), (d.map Prod.fst).Nodup →
    ∀ (lang : Str) (kv : Str × Nat), kv ∈ bump d lang →
    (kv ∈ d ∧ kv.1 ≠ lang) ∨
      (∃ v0, kv = (lang, v0 + 1) ∧ (lang, v0) ∈ d) ∨
      (kv = (lang, 1) ∧ lang ∉ d.map Prod.fst) := by
  intro d
  induction d with
  | nil =>
    intro _ lang kv hkv
    simp only [bump, List.mem_singleton] at hkv
    exact Or.inr (Or.inr ⟨hkv, by simp⟩)
  | cons p rest ih =>
    intro hnd lang kv hkv
    obtain ⟨k, v⟩ := p
    have hnd2 : (rest.map Prod.fst).Nodup := (List.nodup_cons.mp hnd).2
    have hhead : k ∉ rest.map Prod.fst := (List.nodup_cons.mp hnd).1
    simp only [bump] at hkv
    split at hkv
    · next hk =>
      subst hk
      rcases List.mem_cons.mp hkv with rfl | h2
      · exact Or.inr (Or.inl ⟨v, rfl, List.mem_cons_self _ _⟩)
      · have hne : kv.1 ≠ k := by
          intro h
          exact hhead (h ▸ List.mem_map.mpr ⟨kv, h2, rfl⟩)
        exact Or.inl ⟨List.mem_cons_of_mem _ h2, hne⟩
    · next hk =>
      rcases List.mem_cons.mp hkv with rfl | h2
      · exact Or.inl ⟨List.mem_cons_self _ _, hk⟩
      · rcases ih hnd2 lang kv h2 with ⟨h3, h4⟩ | ⟨v0, rfl, h3⟩ | ⟨rfl, h3⟩
        · exact Or.inl ⟨List.mem_cons_of_mem _ h3, h4⟩
        · exact Or.inr (Or.inl ⟨v0, rfl, List.mem_cons_of_mem _ h3⟩)
        · refine Or.inr (Or.inr ⟨rfl, ?_⟩)
          simp only [List.map_cons, List.mem_cons]
          rintro (h4 | h4)
          · exact hk h4.symm
          · exact h3 h4

/-- Key list of a bumped language-count list. -/
theorem keys_bump : ∀ (d : List (Str × Nat)) (lang : Str),
    (bump d lang).map Prod.fst =
      if lang ∈ d.map Prod.fst then d.map Prod.fst
      else d.map Prod.fst ++ [lang] := by
  intro d
  induction d with
  | nil => intro lang; simp [bump]
  | cons p rest ih =>
    intro lang
    obtain ⟨k, v⟩ := p
    simp only [bump]
    by_cases hk : k = lang
    · subst hk
      rw [if_pos rfl, if_pos (by simp)]
      simp
    · rw [if_neg hk]
      simp only [List.map_cons, ih lang]
      by_cases hmem : lang ∈ rest.map Prod.fst
      · rw [if_pos hmem, if_pos (by simp [hmem])]
      · have hno : lang ∉ k :: rest.map Prod.fst := by
          simp only [List.mem_cons]
          rintro (h | h)
          · exact hk h.symm
          · exact hmem h
        rw [if_neg hmem, if_neg hno, List.cons_append]

/-- Invariant of the language-count dictionary: entries carry the exact
occurrence counts, every spoken code is a key, and keys are ordered by
first occurrence. -/
theorem countLangs_inv (l : List Str) :
    (∀ kv ∈ countLangs l, kv.2 = List.count kv.1 l ∧ kv.1 ∈ l) ∧
    (∀ x ∈ l, x ∈ (countLangs l).map Prod.fst) ∧
    List.Pairwise (fun a b => List.indexOf a l < List.indexOf b l)
      ((countLangs l).map Prod.fst) := by
  induction l using List.reverseRecOn with
  | nil => refine ⟨?_, ?_, ?_⟩ <;> simp [countLangs]
  | append_singleton l a ih =>
    obtain ⟨F1, F2, F3⟩ := ih
    have hkeys_sub : ∀ k ∈ (countLangs l).map Prod.fst, k ∈ l := by
      intro k hk
      simp only [List.mem_map] at hk
      obtain ⟨kv, hkv, rfl⟩ := hk
      exact (F1 kv hkv).2
    have hnd : ((countLangs l).map Prod.fst).Nodup :=
      F3.imp (fun h heq => absurd (heq ▸ h) (lt_irrefl _))
    have hcl : countLangs (l ++ [a]) = bump (countLangs l) a := by
      simp [countLangs, List.foldl_append]
    refine ⟨?_, ?_, ?_⟩
    · rw [hcl]
      intro kv hkv
      rcases bump_mem (countLangs l) hnd a kv hkv with
        ⟨h1, h2⟩ | ⟨v0, rfl, h1⟩ | ⟨rfl, h1⟩
      · obtain ⟨hc, hm⟩ := F1 kv h1
        refine ⟨?_, List.mem_append.mpr (Or.inl hm)⟩
        rw [List.count_append, hc]
        have hz : List.count kv.1 [a] = 0 := by
          rw [List.count_eq_zero]
          simpa using h2
        omega
      · obtain ⟨hc, hm⟩ := F1 (a, v0) h1
        refine ⟨?_, List.mem_append.mpr (Or.inl hm)⟩
        show v0 + 1 = List.count a (l ++ [a])
        rw [List.count_append]
        have ho : List.count a [a] = 1 := by simp
        have hc2 : v0 = List.count a l := hc
        omega
      · have hnl : a ∉ l := fun hx => h1 (F2 a hx)
        have hz : List.count a l = 0 := List.count_eq_zero.mpr hnl
        refine ⟨?_, by simp⟩
        simp [List.count_append, hz]
    · rw [hcl, keys_bump]
      intro x hx
      rcases List.mem_append.mp hx with hx | hx
      · have h2 := F2 x hx
        split_ifs <;> simp [h2]
      · simp only [List.mem_singleton] at hx
        subst hx
        split_ifs with h
        · exact h
        · simp
    · rw [hcl, keys_bump]
      split_ifs with hmem
      · refine F3.imp_of_mem ?_
        intro b c hb hc h
        rw [indexOf_append_left b l [a] (hkeys_sub b hb),
          indexOf_append_left c l [a] (hkeys_sub c hc)]
        exact h
      · have hnl : a ∉ l := fun hx => hmem (F2 a hx)
        rw [List.pairwise_append]
        refine ⟨F3.imp_of_mem ?_, by simp, ?_⟩
        · intro b c hb hc h
          rw [indexOf_append_left b l [a] (hkeys_sub b hb),
            indexOf_append_left c l [a] (hkeys_sub c hc)]
          exact h
        · intro b hb c hc
          simp only [List.mem_singleton] at hc
          subst hc
          rw [indexOf_append_left b l [c] (hkeys_sub b hb),
            indexOf_append_abs c l [c] hnl]
          have h2 : List.indexOf b l < l.length :=
            indexOf_lt_len b l (hkeys_sub b hb)
          omega

/-- The insertion-order maximum scan keeps the start value on no strict
improvement, and otherwise returns the first entry strictly exceeding
everything before it. -/
theorem pickBest_spec : ∀ (s : List (Str × Nat)) (best : Str) (bv : Nat),
    (pickBest best bv s = best ∧ ∀ kv ∈ s, kv.2 ≤ bv) ∨
    (∃ s1 kv s2, s = s1 ++ kv :: s2 ∧ pickBest best bv s = kv.1 ∧
      bv < kv.2 ∧ (∀ kv2 ∈ s1, kv2.2 < kv.2) ∧
      (∀ kv2 ∈ s2, kv2.2 ≤ kv.2)) := by
  intro s
  induction s with
  | nil => intro best bv; exact Or.inl ⟨rfl, by simp⟩
  | cons p rest ih =>
    intro best bv
    obtain ⟨k, v⟩ := p
    simp only [pickBest]
    split_ifs with hbv
    · rcases ih k v with ⟨hres, hall⟩ |
        ⟨s1, kv, s2, heq, hres, hlt, hs1, hs2⟩
      · exact Or.inr ⟨[], (k, v), rest, by simp, hres, hbv, by simp, hall⟩
      · refine Or.inr ⟨(k, v) :: s1, kv, s2, by simp [heq], hres,
          lt_trans hbv hlt, ?_, hs2⟩
        intro kv2 hkv2
        rcases List.mem_cons.mp hkv2 with rfl | h2
        · exact hlt
        · exact hs1 kv2 h2
    · rcases ih best bv with ⟨hres, hall⟩ |
        ⟨s1, kv, s2, heq, hres, hlt, hs1, hs2⟩
      · refine Or.inl ⟨hres, ?_⟩
        intro kv2 hkv2
        rcases List.mem_cons.mp hkv2 with rfl | h2
        · exact le_of_not_lt hbv
        · exact hall kv2 h2
      · refine Or.inr ⟨(k, v) :: s1, kv, s2, by simp [heq], hres, hlt,
          ?_, hs2⟩
        intro kv2 hkv2
        rcases List.mem_cons.mp hkv2 with rfl | h2
        · exact lt_of_le_of_lt (le_of_not_lt hbv) hlt
        · exact hs1 kv2 h2

/-- On a nonempty vote list, `_determine_language` returns a vote of
maximal multiplicity, ties broken in favor of the earliest first
occurrence. -/
theorem determineLanguage_spec (l : List Str) (hne : l ≠ []) :
    determineLanguage l ∈ l ∧
      (∀ v ∈ l, List.count v l ≤ List.count (determineLanguage l) l) ∧
      (∀ v ∈ l, List.count v l = List.count (determineLanguage l) l →
        List.indexOf (determineLanguage l) l ≤ List.indexOf v l) := by
  obtain ⟨F1, F2, F3⟩ := countLangs_inv l
  have hx0 : ∃ x, x ∈ l := by
    rcases l with _ | ⟨x, xs⟩
    · exact absurd rfl hne
    · exact ⟨x, List.mem_cons_self _ _⟩
  obtain ⟨x0, hx0⟩ := hx0
  rcases hcs : countLangs l with _ | ⟨⟨k0, v0⟩, s⟩
  · have := F2 x0 hx0
    rw [hcs] at this
    cases this
  have hdl : determineLanguage l = pickBest k0 v0 s := by
    simp [determineLanguage, hcs]
  have entry_of_mem : ∀ v ∈ l, ∃ kv, kv ∈ countLangs l ∧ kv.1 = v ∧
      kv.2 = List.count v l := by
    intro v hv
    have h2 := F2 v hv
    simp only [List.mem_map] at h2
    obtain ⟨kv, hkv, rfl⟩ := h2
    exact ⟨kv, hkv, rfl, (F1 kv hkv).1⟩
  have hkeys : (countLangs l).map Prod.fst = k0 :: s.map Prod.fst := by
    rw [hcs]; rfl
  rw [hdl]
  rcases pickBest_spec s k0 v0 with ⟨hres, hall⟩ |
    ⟨s1, kv, s2, heq, hres, hlt, hs1, hs2⟩
  · rw [hres]
    have hk0 : (k0, v0) ∈ countLangs l := by
      rw [hcs]; exact List.mem_cons_self _ _
    have hk0c : v0 = List.count k0 l := (F1 _ hk0).1
    refine ⟨(F1 _ hk0).2, ?_, ?_⟩
    · intro v hv
      obtain ⟨kv, hkv, hk1, hk2⟩ := entry_of_mem v hv
      rw [hcs] at hkv
      rcases List.mem_cons.mp hkv with rfl | h2
      · have hk1h : k0 = v := hk1
        have hk2h : v0 = List.count v l := hk2
        subst hk1h
        omega
      · have h3 := hall kv h2
        omega
    · intro v hv _
      have h2 := F2 v hv
      rw [hkeys] at h2
      have hF3 := F3
      rw [hkeys] at hF3
      rcases List.mem_cons.mp h2 with rfl | h3
      · exact le_rfl
      · exact le_of_lt ((List.pairwise_cons.mp hF3).1 v h3)
  · rw [hres]
    have hkv : kv ∈ countLangs l := by
      rw [hcs, heq]
      exact List.mem_cons_of_mem _ (List.mem_append.mpr
        (Or.inr (List.mem_cons_self _ _)))
    have hkvc : kv.2 = List.count kv.1 l := (F1 _ hkv).1
    have hk0 : (k0, v0) ∈ countLangs l := by
      rw [hcs]; exact List.mem_cons_self _ _
    have hk0c : v0 = List.count k0 l := (F1 _ hk0).1
    refine ⟨(F1 _ hkv).2, ?_, ?_⟩
    · intro v hv
      obtain ⟨kv2, hkv2, hk1, hk2⟩ := entry_of_mem v hv
      rw [hcs, heq] at hkv2
      rcases List.mem_cons.mp hkv2 with rfl | h2
      · have hk1h : k0 = v := hk1
        have hk2h : v0 = List.count v l := hk2
        subst hk1h
        omega
      · rcases List.mem_append.mp h2 with h3 | h3
        · have h4 := hs1 kv2 h3
          have hk2h : kv2.2 = List.count v l := hk2
          omega
        · rcases List.mem_cons.mp h3 with rfl | h4
          · rw [hk1]
          · have h5 := hs2 kv2 h4
            have hk2h : kv2.2 = List.count v l := hk2
            omega
    · intro v hv hveq
      obtain ⟨kv2, hkv2, hk1, hk2⟩ := entry_of_mem v hv
      rw [hcs, heq] at hkv2
      rcases List.mem_cons.mp hkv2 with rfl | h2
      · have hk2h : v0 = List.count v l := hk2
        omega
      · rcases List.mem_append.mp h2 with h3 | h3
        · have h4 := hs1 kv2 h3
          have hk2h : kv2.2 = List.count v l := hk2
          omega
        · rcases List.mem_cons.mp h3 with rfl | h4
          · rw [hk1]
          · have hF3 := F3
            rw [hkeys, heq] at hF3
            have hps := (List.pairwise_cons.mp hF3).2
            rw [List.map_append, List.map_cons] at hps
            have hcross := (List.pairwise_append.mp hps).2.1
            have h5 := (List.pairwise_cons.mp hcross).1
            have h6 : v ∈ s2.map Prod.fst :=
              hk1 ▸ List.mem_map.mpr ⟨kv2, h4, rfl⟩
            exact le_of_lt (h5 v h6)

/-- The element loop's vote list is exactly: keep the cleaned elements
whose stripped content exceeds 50 characters, query the detector on each,
and drop the failures. -/
theorem cleanLoop_votes (nfc : Str → Str) (detect : Str → Option Str)
    (lvl : CleaningLevel) (es : List DocumentElement) :
    ∀ st : CleaningStats,
      (cleanLoop nfc detect lvl st es).2.1 =
        (((cleanLoop nfc detect lvl st es).1.filter
            fun e => decide (50 < (strip e.content).length)).filterMap
          fun e => detect e.content) := by
  induction es with
  | nil => intro st; rfl
  | cons e rest ih =>
    intro st
    simp only [cleanLoop]
    rcases hce : (cleanElement nfc lvl e st).1 with _ | ce
    · simp only []
      exact ih _
    · simp only []
      split_ifs with hsc h50
      · exact ih _
      · have hr := ih (cleanElement nfc lvl e st).2
        rcases hd : detect ce.content with _ | lg
        · simp [hd, hr, List.filter_cons, h50, List.filterMap_cons]
        · simp [hd, hr, List.filter_cons, h50, List.filterMap_cons]
      · have hr := ih (cleanElement nfc lvl e st).2
        simp [hr, List.filter_cons, h50]

/-- The kept elements of the element loop do not depend on the language
detector. -/
theorem cleanLoop_elems_detect_indep (nfc : Str → Str)
    (d1 d2 : Str → Option Str) (lvl : CleaningLevel)
    (es : List DocumentElement) : ∀ st : CleaningStats,
    (cleanLoop nfc d1 lvl st es).1 = (cleanLoop nfc d2 lvl st es).1 := by
  induction es with
  | nil => intro st; rfl
  | cons e rest ih =>
    intro st
    simp only [cleanLoop]
    rcases hce : (cleanElement nfc lvl e st).1 with _ | ce
    · simp only []
      exact ih _
    · simp only []
      split_ifs with hsc
      · exact ih _
      all_goals simp [ih (cleanElement nfc lvl e st).2]

/-! ## Stats-threading lemmas -/

/-- The per-element cleaning pipeline never touches `cleaned_chars`,
`original_chars` or `language_detected`. -/
theorem cleanElementContent_stats_base (nfc : Str → Str) (lvl : CleaningLevel)
    (c : Str) (st : CleaningStats) :
    (cleanElementContent nfc lvl c st).2.cleaned_chars = st.cleaned_chars ∧
    (cleanElementContent nfc lvl c st).2.original_chars = st.original_chars ∧
    (cleanElementContent nfc lvl c st).2.language_detected
      = st.language_detected := by
  simp only [cleanElementContent]
  split_ifs <;> exact ⟨rfl, rfl, rfl⟩

/-- `_clean_element` never touches `cleaned_chars`, `original_chars` or
`language_detected`. -/
theorem cleanElement_stats_base (nfc : Str → Str) (lvl : CleaningLevel)
    (e : DocumentElement) (st : CleaningStats) :
    (cleanElement nfc lvl e st).2.cleaned_chars = st.cleaned_chars ∧
    (cleanElement nfc lvl e st).2.original_chars = st.original_chars ∧
    (cleanElement nfc lvl e st).2.language_detected = st.language_detected := by
  simp only [cleanElement]
  split_ifs
  · exact ⟨rfl, rfl, rfl⟩
  · exact cleanElementContent_stats_base nfc lvl e.content st

/-- The element loop never touches `cleaned_chars`, `original_chars` or
`language_detected`. -/
theorem cleanLoop_stats_base (nfc : Str → Str) (detect : Str → Option Str)
    (lvl : CleaningLevel) (es : List DocumentElement) (st : CleaningStats) :
    (cleanLoop nfc detect lvl st es).2.2.cleaned_chars = st.cleaned_chars ∧
    (cleanLoop nfc detect lvl st es).2.2.original_chars = st.original_chars ∧
    (cleanLoop nfc detect lvl st es).2.2.language_detected
      = st.language_detected := by
  induction es generalizing st with
  | nil => exact ⟨rfl, rfl, rfl⟩
  | cons e rest ih =>
    have hbase := cleanElement_stats_base nfc lvl e st
    simp only [cleanLoop]
    rcases hce : (cleanElement nfc lvl e st).1 with _ | ce
    · simp only []
      refine ⟨?_, ?_, ?_⟩ <;>
        simp [(ih (cleanElement nfc lvl e st).2).1,
          (ih (cleanElement nfc lvl e st).2).2.1,
          (ih (cleanElement nfc lvl e st).2).2.2, hbase.1, hbase.2.1, hbase.2.2]
    · simp only []
      split_ifs <;>
        refine ⟨?_, ?_, ?_⟩ <;>
          simp [(ih (cleanElement nfc lvl e st).2).1,
            (ih (cleanElement nfc lvl e st).2).2.1,
            (ih (cleanElement nfc lvl e st).2).2.2, hbase.1, hbase.2.1,
            hbase.2.2]

/-- The quality score reads only the reduction fields and the header/footer
counters of the stats. -/
theorem calculateQualityScore_congr (elems : List DocumentElement)
    (st st' : CleaningStats) (h1 : st.original_chars = st'.original_chars)
    (h2 : st.cleaned_chars = st'.cleaned_chars)
    (h3 : st.headers_removed = st'.headers_removed)
    (h4 : st.footers_removed = st'.footers_removed) :
    calculateQualityScore elems st = calculateQualityScore elems st' := by
  simp only [calculateQualityScore, getReductionPercentage, h1, h2, h3, h4]

/-- The quality score returned by `normalize_document` is computed from the
final stats with `cleaned_chars` still at 0 (the source fills `cleaned_chars`
only after scoring). -/
theorem normalizeDocument_quality_spec (nfc : Str → Str)
    (detect : Str → Option Str) (lvl : CleaningLevel) (S : DocumentStructure) :
    (normalizeDocument nfc detect lvl S).quality_score =
      calculateQualityScore
        (normalizeDocument nfc detect lvl S).cleaned_elements
        { (normalizeDocument nfc detect lvl S).cleaning_stats with
            cleaned_chars := 0 } := by
  have h := (cleanLoop_stats_base nfc detect lvl S.elements
    { original_chars := (S.elements.map fun e => e.content.length).sum }).1
  simp only [normalizeDocument]
  exact calculateQualityScore_congr _ _ _ rfl (by simp [h]) rfl rfl

/-- C9 (counterexample): the unconditional range claim fails on the real
NFC behavior.  With the unicode normalizer taking the documented NFC value
on U+0344 (it expands to U+0308 U+0301), normalizing a one-element
structure holding exactly U+0344 at Minimal level yields
original_chars = 1, cleaned_chars = 2 and a negative reduction
percentage. -/
theorem c9_reduction_negative_counterexample :
    (normalizeDocument nfcOn0344 detFail CleaningLevel.minimal
        (oneParagraph (['\u0344']))).cleaning_stats.original_chars = 1 ∧
      (normalizeDocument nfcOn0344 detFail CleaningLevel.minimal
        (oneParagraph (['\u0344']))).cleaning_stats.cleaned_chars = 2 ∧
      getReductionPercentage
        (normalizeDocument nfcOn0344 detFail CleaningLevel.minimal
          (oneParagraph (['\u0344']))).cleaning_stats < 0 := by
  refine ⟨by decide, by decide, ?_⟩
  have h1 : (normalizeDocument nfcOn0344 detFail CleaningLevel.minimal
      (oneParagraph (['\u0344']))).cleaning_stats.original_chars = 1 := by
    decide
  have h2 : (normalizeDocument nfcOn0344 detFail CleaningLevel.minimal
      (oneParagraph (['\u0344']))).cleaning_stats.cleaned_chars = 2 := by
    decide
  norm_num [getReductionPercentage, h1, h2]

/-- C9 (amended): when the unicode normalizer does not lengthen content,
the reduction percentage of the CleaningStats of every NormalizedDocument
produced by normalize lies in [0, 100], equals 0 whenever
original_chars = cleaned_chars, and is 0 when original_chars = 0. -/
theorem c9_reduction_percentage_range (nfc : Str → Str)
    (hn : ∀ s, (nfc s).length ≤ s.length) (detect : Str → Option Str)
    (lvl : CleaningLevel) (S : DocumentStructure) :
    0 ≤ getReductionPercentage
        (normalizeDocument nfc detect lvl S).cleaning_stats ∧
      getReductionPercentage
          (normalizeDocument nfc detect lvl S).cleaning_stats ≤ 100 ∧
      ((normalizeDocument nfc detect lvl S).cleaning_stats.original_chars =
          (normalizeDocument nfc detect lvl S).cleaning_stats.cleaned_chars →
        getReductionPercentage
          (normalizeDocument nfc detect lvl S).cleaning_stats = 0) ∧
      ((normalizeDocument nfc detect lvl S).cleaning_stats.original_chars
          = 0 →
        getReductionPercentage
          (normalizeDocument nfc detect lvl S).cleaning_stats = 0) := by
  apply getReductionPercentage_range
  have horig :
      (normalizeDocument nfc detect lvl S).cleaning_stats.original_chars
        = (S.elements.map fun e => e.content.length).sum := by
    simp only [normalizeDocument]
    exact (cleanLoop_stats_base nfc detect lvl S.elements
      { original_chars := (S.elements.map fun e => e.content.length).sum }).2.1
  have hclean :
      (normalizeDocument nfc detect lvl S).cleaning_stats.cleaned_chars
        = (((cleanLoop nfc detect lvl
            { original_chars := (S.elements.map fun e => e.content.length).sum }
            S.elements).1.map fun e => e.content.length).sum) := rfl
  rw [horig, hclean]
  exact cleanLoop_cleaned_sum_le nfc hn detect lvl S.elements _

/-- Witness for C9: the identity unicode normalizer on a one-paragraph
document. -/
theorem c9_reduction_percentage_range_witness :
    (∀ s : Str, (id s).length ≤ s.length) ∧
      (0 ≤ getReductionPercentage
          (normalizeDocument id detFail CleaningLevel.minimal
            (oneParagraph unkHint)).cleaning_stats ∧
        getReductionPercentage
            (normalizeDocument id detFail CleaningLevel.minimal
              (oneParagraph unkHint)).cleaning_stats ≤ 100 ∧
        ((normalizeDocument id detFail CleaningLevel.minimal
              (oneParagraph unkHint)).cleaning_stats.original_chars =
            (normalizeDocument id detFail CleaningLevel.minimal
              (oneParagraph unkHint)).cleaning_stats.cleaned_chars →
          getReductionPercentage
            (normalizeDocument id detFail CleaningLevel.minimal
              (oneParagraph unkHint)).cleaning_stats = 0) ∧
        ((normalizeDocument id detFail CleaningLevel.minimal
              (oneParagraph unkHint)).cleaning_stats.original_chars = 0 →
          getReductionPercentage
            (normalizeDocument id detFail CleaningLevel.minimal
              (oneParagraph unkHint)).cleaning_stats = 0)) :=
  ⟨fun _ => le_rfl,
    c9_reduction_percentage_range id (fun _ => le_rfl) detFail
      CleaningLevel.minimal (oneParagraph unkHint)⟩

/-- C8 (amended): re-normalizing the cleaned elements of a normalize run as
a new DocumentStructure at the same level always yields zero additional
invisible-character removals, provided the unicode normalizer preserves
freedom from removable characters (the header/footer counters of the second
run can be nonzero, as a separate counterexample shows). -/
theorem c8_reclean_invisible_zero (nfc : Str → Str)
    (hn : ∀ s, NoBad s → NoBad (nfc s)) (detect : Str → Option Str)
    (lvl : CleaningLevel) (S : DocumentStructure) :
    (normalizeDocument nfc detect lvl
      { elements := (normalizeDocument nfc detect lvl S).cleaned_elements,
        hierarchy := [], table_of_contents := [] }
     ).cleaning_stats.invisible_chars_removed = 0 := by
  have h1 : ∀ e ∈ (normalizeDocument nfc detect lvl S).cleaned_elements,
      NoBad e.content := by
    intro e he
    exact cleanLoop_noBad nfc detect lvl S.elements
      { original_chars := (S.elements.map fun x => x.content.length).sum }
      e he
  exact cleanLoop_invisible_preserved nfc hn detect lvl
    (normalizeDocument nfc detect lvl S).cleaned_elements
    { original_chars :=
        (((normalizeDocument nfc detect lvl S).cleaned_elements.map
          fun x => x.content.length).sum) } h1

/-- Witness for the amended C8 at the identity unicode normalizer. -/
theorem c8_reclean_invisible_zero_witness :
    (∀ s : Str, NoBad s → NoBad (id s)) ∧
      (normalizeDocument id detFail CleaningLevel.standard
        { elements := (normalizeDocument id detFail CleaningLevel.standard
            (oneParagraph unkHint)).cleaned_elements,
          hierarchy := [], table_of_contents := [] }
       ).cleaning_stats.invisible_chars_removed = 0 :=
  ⟨fun _ h => h,
    c8_reclean_invisible_zero id (fun _ h => h) detFail
      CleaningLevel.standard (oneParagraph unkHint)⟩

/-- C7 (amended): modeling the detector as an oracle, normalize queries it
exactly on kept cleaned elements whose stripped content length exceeds 50,
a failing call only drops that element from the vote (the kept elements do
not depend on the detector at all), and the detected language is the most
frequent returned code — ties broken by earliest occurrence — or the
unknown value when no vote exists. -/
theorem c7_detection_oracle_spec (nfc : Str → Str)
    (detect : Str → Option Str) (lvl : CleaningLevel)
    (S : DocumentStructure) :
    (normalizeDocument nfc detect lvl S).detected_language
        = determineLanguage (languageVotes nfc detect lvl S) ∧
      languageVotes nfc detect lvl S
        = (((normalizeDocument nfc detect lvl S).cleaned_elements.filter
            fun e => decide (50 < (strip e.content).length)).filterMap
           fun e => detect e.content) ∧
      (∀ detect2 : Str → Option Str,
        (normalizeDocument nfc detect2 lvl S).cleaned_elements
          = (normalizeDocument nfc detect lvl S).cleaned_elements) ∧
      determineLanguage [] = (r"unknown").data ∧
      (∀ l : List Str, l ≠ [] →
        determineLanguage l ∈ l ∧
        (∀ v ∈ l, List.count v l ≤ List.count (determineLanguage l) l) ∧
        (∀ v ∈ l, List.count v l = List.count (determineLanguage l) l →
          List.indexOf (determineLanguage l) l ≤ List.indexOf v l)) := by
  refine ⟨rfl, ?_, ?_, rfl, determineLanguage_spec⟩
  · exact cleanLoop_votes nfc detect lvl S.elements _
  · intro detect2
    exact cleanLoop_elems_detect_indep nfc detect2 detect lvl S.elements _

/-- Witness for the amended C7 on a concrete document and vote list. -/
theorem c7_detection_oracle_spec_witness :
    ((r"en").data :: (r"fr").data :: (r"en").data :: [] ≠ []) ∧
      (normalizeDocument id detEn CleaningLevel.minimal
          (oneParagraph unkHint)).detected_language
        = determineLanguage (languageVotes id detEn CleaningLevel.minimal
            (oneParagraph unkHint)) ∧
      determineLanguage
          ((r"en").data :: (r"fr").data :: (r"en").data :: []) ∈
        ((r"en").data :: (r"fr").data :: (r"en").data :: []) :=
  ⟨by decide,
   (c7_detection_oracle_spec id detEn CleaningLevel.minimal
       (oneParagraph unkHint)).1,
   ((c7_detection_oracle_spec id detEn CleaningLevel.minimal
       (oneParagraph unkHint)).2.2.2.2
     ((r"en").data :: (r"fr").data :: (r"en").data :: [])
     (by decide)).1⟩

/-! ## Scenario claims settled by computation -/

/-- C1, counterexample: on `"# Title\n\nSome paragraph text here."` the
parser yields two Heading elements — the first at level 5 (the level lambda
measures `len(m.group(1).split()[0]) = len("Title")`, not the hash count)
and the second at level 1 (`"Some paragraph text here."` matches the
capitalized-sentence heading rule `^([A-Z][^.]*\.)$`) — and the table of
contents has two entries, contradicting the claimed
Heading(level 1)/Paragraph split with a one-entry TOC. -/
theorem c1_parse_scenarioA_counterexample :
    (parse scnA unkHint).map (fun S =>
      (S.elements.map fun e => (e.element_type, e.level),
        S.table_of_contents.length)) =
    some ([(ContentType.heading, 5), (ContentType.heading, 1)], 2) := by
  decide

/-- C1, amended: parsing `"# Title\n\nSome paragraph text here."` yields
exactly two elements, a Heading with level 5 and content `"# Title"` at
position 0 and a Heading with level 1 and content
`"Some paragraph text here."` at position 1, neither with a parent; the
hierarchy is empty and the table of contents has exactly the two entries
`(title "# Title", level 5, position 0)` and
`(title "Some paragraph text here.", level 1, position 1)`. -/
theorem c1_parse_scenarioA :
    parse scnA unkHint =
      some
        ⟨[{ content := ("# Title").data, element_type := ContentType.heading,
            level := 5, position := 0, parent_id := none },
          { content := ("Some paragraph text here.").data,
            element_type := ContentType.heading, level := 1, position := 1,
            parent_id := none }],
         [],
         [{ title := ("# Title").data, level := 5, position := 0,
            element_id := 0 },
          { title := ("Some paragraph text here.").data, level := 1,
            position := 1, element_id := 1 }]⟩ := by
  decide

/-- C2: the reduction penalty of the quality score is computed before
`cleaned_chars` is filled in, so it sees a reduction of 100% rather than the
final reduction.  On a one-element structure `"hello world"` that minimal
cleaning leaves unchanged, the returned stats have reduction 0 (so the claim
demands no reduction penalty, score `1 - 0.1 = 0.9` from the short-content
penalty), yet the score is `1 - 0.3 - 0.1 = 0.6`. -/
theorem c2_quality_uses_stale_reduction :
    (normalizeDocument id detFail CleaningLevel.minimal
        (oneParagraph (("hello world").data))).quality_score = 3 / 5 ∧
    getReductionPercentage
      (normalizeDocument id detFail CleaningLevel.minimal
        (oneParagraph (("hello world").data))).cleaning_stats = 0 := by
  have hcl : (normalizeDocument id detFail CleaningLevel.minimal
      (oneParagraph (("hello world").data))).cleaned_elements =
      [{ content := ("hello world").data,
         element_type := ContentType.paragraph, level := 0, position := 0,
         parent_id := none }] := by decide
  have hst : (normalizeDocument id detFail CleaningLevel.minimal
      (oneParagraph (("hello world").data))).cleaning_stats =
      { original_chars := 11, cleaned_chars := 11 } := by decide
  have hlen : (("hello world").data).length = 11 := by decide
  constructor
  · rw [normalizeDocument_quality_spec, hcl, hst]
    norm_num [calculateQualityScore, getReductionPercentage, hlen, min_def,
      max_def]
  · rw [hst]
    norm_num [getReductionPercentage]

/-- C3: on the element `"abc\ndef"` the line-break-repair pass counts one
fixed break (`line_breaks_fixed = 1`) but the cleaned content still contains
the newline at that boundary — the source appends `line + ' '` and then
rejoins with `'\n'`, so the two lines are never merged (and the added space
is stripped again by whitespace standardization). -/
theorem c3_line_break_not_joined :
    (normalizeDocument id detFail CleaningLevel.minimal
        (oneParagraph (("abc\ndef").data))).cleaned_elements.map
      (fun e => e.content) = [("abc\ndef").data] ∧
    (normalizeDocument id detFail CleaningLevel.minimal
        (oneParagraph (("abc\ndef").data))).cleaning_stats.line_breaks_fixed
      = 1 := by
  constructor
  · decide
  · decide

/-- C4: no input ever produces a CodeBlock element.  The fenced pattern
`^```[\w]*\n.*?\n```$` requires a newline inside a single split line and the
indented pattern `^\s{4,}` is tested on the stripped line, so
`_identify_element` can never reach `_extract_code_block`; both a fenced
block and an indented block fall through to a single Paragraph element. -/
theorem c4_code_blocks_unreachable :
    (parse fencedTxt unkHint).map (fun S =>
        S.elements.map fun e => (e.element_type, e.content)) =
      some [(ContentType.paragraph, ("```\ncode\n```").data)] ∧
    (parse indentTxt unkHint).map (fun S =>
        S.elements.map fun e => (e.element_type, e.content)) =
      some [(ContentType.paragraph, ("x = 1\ny = 2").data)] := by
  constructor
  · decide
  · decide

/-- C5, counterexample: aggressive cleaning of
`"ok\n!!!!!!!!!!\nok\nok"` leaves nothing — no `"ok"` line survives (the
normalized document has zero cleaned elements), contradicting the claim that
two `"ok"` lines survive. -/
theorem c5_aggressive_scenarioD_counterexample :
    (normalizeDocument id detFail CleaningLevel.aggressive
      (oneParagraph scnD)).cleaned_elements = [] := by
  decide

/-- C5, amended: aggressive redundant-content filtering of the four lines
`"ok"`, `"!!!!!!!!!!"`, `"ok"`, `"ok"` drops the `"!!!!!!!!!!"` line for
exceeding the 0.7 special-character ratio and drops every `"ok"` line — not
for duplication, but because `"ok"` is shorter than the 3-character minimum
— so the cleaned content is empty. -/
theorem c5_aggressive_scenarioD :
    removeRedundantContent scnD = [] ∧
    ((r"ok").data).length < 3 ∧
    7 * bangLine.length < 10 * specialCount bangLine := by
  refine ⟨by decide, by decide, by decide⟩

/-- C7, counterexample: the detector is invoked only when the *stripped*
cleaned content is longer than 50 characters, not the content itself.  The
element cleaning to `"\n\n" ++ 50·'x'` has content length 52 > 50, yet with
an always-succeeding detector answering `"en"` the document language is
still `"unknown"` — the call never happens. -/
theorem c7_detection_counterexample :
    ((normalizeDocument id detEn CleaningLevel.minimal
        (oneParagraph len52Content)).cleaned_elements.map
      fun e => e.content.length) = [52] ∧
    (normalizeDocument id detEn CleaningLevel.minimal
        (oneParagraph len52Content)).detected_language = (r"unknown").data := by
  constructor
  · decide
  · decide

/-- C8, counterexample: re-normalizing already-cleaned elements at the same
Standard level removes one header line and one footer line.  Whitespace
collapsing in the first run turns `"b<32 spaces>chapter 1"` into
`"b chapter 1"`, which now matches the chapter header pattern within its
30-character window, and `"all  rights reserved"` into
`"all rights reserved"`, which now contains the copyright footer literal. -/
theorem c8_reclean_counterexample :
    (normalizeDocument id detFail CleaningLevel.standard
        ⟨(normalizeDocument id detFail CleaningLevel.standard
            recleanS).cleaned_elements, [], []⟩).cleaning_stats.headers_removed
      = 1 ∧
    (normalizeDocument id detFail CleaningLevel.standard
        ⟨(normalizeDocument id detFail CleaningLevel.standard
            recleanS).cleaned_elements, [], []⟩).cleaning_stats.footers_removed
      = 1 := by
  constructor
  · decide
  · decide

end DocPipe
